import Mathlib

/-!
# Scenario scripts `scratch/first.cc` and `scratch/testBAS.cc`

A shallow embedding of the two scenario scripts and the properties their
specification states about them.

Conventions of the embedding

* `uint16_t`, `uint32_t` and `uint64_t` values are natural numbers; every
  operation that can wrap is written with an explicit `% 2 ^ w`.
* A finite `double` is the rational it denotes, and the `double` operations
  of the scripts (`simulationTime + 1`, the conversion, product and quotient
  of the throughput) round to nearest, ties to even.  The placement geometry
  is written over an arbitrary field so that it can be read over the real
  numbers, as the properties about it are.
* `main` of `testBAS.cc` is embedded as the list of calls it makes on the
  simulation library, in program order.
-/

namespace NS3Scratch

/-! ## Unsigned machine arithmetic -/

/-- The modulus of `uint16_t`. -/
def UINT16_MOD : Nat := 2 ^ 16

/-- The modulus of `uint32_t`. -/
def UINT32_MOD : Nat := 2 ^ 32

/-- The modulus of `uint64_t`. -/
def UINT64_MOD : Nat := 2 ^ 64

/-- Product of two `uint64_t` operands (the usual arithmetic conversions have
already brought both operands to `uint64_t`). -/
def mulU64 (a b : Nat) : Nat := (a * b) % UINT64_MOD

/-- The value of `nWifi - 1` for `uint32_t nWifi`. -/
def subOneU32 (n : Nat) : Nat := (n + UINT32_MOD - 1) % UINT32_MOD

/-- The value of `i++` for `uint16_t i`. -/
def incU16 (i : Nat) : Nat := (i + 1) % UINT16_MOD

/-! ## Binary64 arithmetic

The `double` operations of the scripts, with round-to-nearest, ties to even.
A finite `double` is represented by its rational value; zero carries no sign,
which matters only for a division by a zero denominator. -/

/-- Rounding of a rational to the nearest integer, ties to the even one. -/
def roundHalfEven (x : ℚ) : ℤ :=
  if x - (⌊x⌋ : ℚ) < 1 / 2 then ⌊x⌋
  else if 1 / 2 < x - (⌊x⌋ : ℚ) then ⌊x⌋ + 1
  else if ⌊x⌋ % 2 = 0 then ⌊x⌋ else ⌊x⌋ + 1

/-- The exponent of the unit in the last place of the binary64 format at `x`:
53 significant bits for normal numbers (exponent at least -1022), and the
fixed exponent -1074 below. -/
def ulpExp (x : ℚ) : ℤ := max (Int.log 2 |x|) (-1022) - 52

/-- The multiple of the unit in the last place nearest to `x`, ties to even:
the binary64 rounding of `x` before the overflow test. -/
def roundToDouble (x : ℚ) : ℚ := (roundHalfEven (x / 2 ^ ulpExp x) : ℚ) * 2 ^ ulpExp x

/-- The values of type `double`. -/
inductive Double where
  | finite (value : ℚ)
  | posInf
  | negInf
  | nan
  deriving DecidableEq, Repr

/-- The least magnitude that is no longer a finite `double`, 2^1024. -/
def DOUBLE_LIMIT : ℚ := 2 ^ 1024

/-- The `double` nearest to the exact result `x`: a rounded value of magnitude
2^1024 or more overflows to an infinity. -/
def toDouble (x : ℚ) : Double :=
  if DOUBLE_LIMIT ≤ roundToDouble x then .posInf
  else if roundToDouble x ≤ -DOUBLE_LIMIT then .negInf
  else .finite (roundToDouble x)

/-- The `double` product. -/
def Double.mul : Double → Double → Double
  | .finite a, .finite b => toDouble (a * b)
  | .finite a, .posInf => if a = 0 then .nan else if 0 < a then .posInf else .negInf
  | .finite a, .negInf => if a = 0 then .nan else if 0 < a then .negInf else .posInf
  | .posInf, .finite b => if b = 0 then .nan else if 0 < b then .posInf else .negInf
  | .negInf, .finite b => if b = 0 then .nan else if 0 < b then .negInf else .posInf
  | .posInf, .posInf => .posInf
  | .posInf, .negInf => .negInf
  | .negInf, .posInf => .negInf
  | .negInf, .negInf => .posInf
  | .nan, _ => .nan
  | _, .nan => .nan

/-- The `double` quotient. -/
def Double.div : Double → Double → Double
  | .finite a, .finite b =>
    if b = 0 then (if a = 0 then .nan else if 0 < a then .posInf else .negInf)
    else toDouble (a / b)
  | .finite _, .posInf => .finite 0
  | .finite _, .negInf => .finite 0
  | .posInf, .finite b => if 0 ≤ b then .posInf else .negInf
  | .negInf, .finite b => if 0 ≤ b then .negInf else .posInf
  | .posInf, .posInf => .nan
  | .posInf, .negInf => .nan
  | .negInf, .posInf => .nan
  | .negInf, .negInf => .nan
  | .nan, _ => .nan
  | _, .nan => .nan

/-- The `double` sum of two finite values whose sum stays finite, as in
`simulationTime + 1`: the sum of the largest `double` and 1 rounds back to the
largest `double`. -/
def addDouble (a b : ℚ) : ℚ := roundToDouble (a + b)

/-! ## Metrics: the throughput expression (testBAS.cc, lines 200-204) -/

/-- The constant `payloadsize` of testBAS.cc, line 92. -/
def payloadsize : Nat := 1900

/-- The integer numerator `totalPacketsThrough * payloadsize * 8` of line 203:
`uint64_t * uint32_t` is computed in `uint64_t`, and so is the product with
the `int` constant 8. -/
def throughputBits (totalPacketsThrough payloadSize : Nat) : Nat :=
  mulU64 (mulU64 totalPacketsThrough payloadSize) 8

/-- The expression
`totalPacketsThrough * payloadsize * 8 / (simulationTime * 1000000.0)` of
line 203: the `uint64_t` numerator is converted to `double`, the denominator
is the `double` product of `simulationTime` and `1000000.0`, and the quotient
is the `double` quotient. -/
def computeThroughput (totalPacketsThrough payloadSize : Nat) (simulationTime : ℚ) : Double :=
  Double.div (toDouble (throughputBits totalPacketsThrough payloadSize))
    (Double.mul (.finite simulationTime) (.finite 1000000))

/-- The throughput printed by the wireless scenario: line 203 with the
script's `payloadsize`. -/
def wirelessThroughput (totalPacketsThrough : Nat) (simulationTime : ℚ) : Double :=
  computeThroughput totalPacketsThrough payloadsize simulationTime

/-- The largest value of the `MaxPackets` attribute of each client
(testBAS.cc, line 181). -/
def MAX_PACKETS : Nat := 4294967295

/-! ## Station placement (testBAS.cc, lines 135-152) -/

/-- The type `ns3::Vector` with coordinates in `R`. -/
structure Vector3 (R : Type) where
  x : R
  y : R
  z : R

/-- The constant `PI` of testBAS.cc, line 43 (`#define PI 3.14159265`). -/
def PI : ℚ := 314159265 / 100000000

/-- The variable `rho` of line 139, `float rho=0.01`: the single-precision
value nearest to 0.01, which is 10737418 / 2^30 = 5368709 / 536870912; line 145
widens it to `double` without change. -/
def rho : ℚ := 5368709 / 536870912

/-- The angle `theta = i*2*PI/nWifi` of line 144, for the loop counter `i`. -/
def theta {R : Type} [Field R] (pi : R) (nWifi i : Nat) : R :=
  (i : R) * 2 * pi / (nWifi : R)

/-- The vector `Vector (rho * cos(theta), rho * sin(theta), 0.0)` of line 145.
The functions `cos` and `sin` of `<cmath>` are parameters. -/
def stationVector {R : Type} [Field R] (cos sin : R → R) (radius pi : R)
    (nWifi i : Nat) : Vector3 R :=
  ⟨radius * cos (theta pi nWifi i), radius * sin (theta pi nWifi i), 0⟩

/-- The contents of `positionAlloc` after lines 137-146: the origin (line 137)
followed by one vector for each pass `i = 0, 1, ..., nWifi - 1` of the loop
`for (double i=0; i<nWifi; i++)`. -/
def positionList {R : Type} [Field R] (cos sin : R → R) (radius pi : R)
    (nWifi : Nat) : List (Vector3 R) :=
  ⟨0, 0, 0⟩ :: (List.range nWifi).map (stationVector cos sin radius pi nWifi)

/-- Modelled from the spec: the class `ListPositionAllocator` of the mobility
module, whose source is not part of the scripts.  The placement rule of the
spec (access point at the origin, station `i` at the `i`-th circle position)
is met by handing out the stored positions one per node in the order in which
they were added, starting again at the first one after the last; `cursor` is
the index of the next position and the result is the positions handed to
`count` nodes with the new cursor. -/
def takePositions {V : Type} (positions : List V) (cursor count : Nat) : List V × Nat :=
  ((List.range count).filterMap (fun k => positions[(cursor + k) % positions.length]?),
   (cursor + count) % positions.length)

/-- The positions of the access point and of the stations after
`mobility.Install (wifiApNode)` (line 151) followed by
`mobility.Install (wifiStaNode)` (line 152): the single access point is served
first, then the `nWifi` stations. -/
def wirelessPlacement {R : Type} [Field R] (cos sin : R → R) (radius pi : R)
    (nWifi : Nat) : List (Vector3 R) × List (Vector3 R) :=
  let positions := positionList cos sin radius pi nWifi
  let ap := takePositions positions 0 1
  let sta := takePositions positions ap.2 nWifi
  (ap.1, sta.1)

/-- The position of the access point (node 0 of `wifiApNode`). -/
def apPosition {R : Type} [Field R] (cos sin : R → R) (radius pi : R)
    (nWifi : Nat) : Option (Vector3 R) :=
  (wirelessPlacement cos sin radius pi nWifi).1[0]?

/-- The position of station `i` (node `i` of `wifiStaNode`). -/
def stationPosition {R : Type} [Field R] (cos sin : R → R) (radius pi : R)
    (nWifi i : Nat) : Option (Vector3 R) :=
  (wirelessPlacement cos sin radius pi nWifi).2[i]?

/-- The squared Euclidean distance of a position to the origin. -/
def Vector3.normSq {R : Type} [Field R] (v : Vector3 R) : R :=
  v.x ^ 2 + v.y ^ 2 + v.z ^ 2

/-! ## Address allocation (testBAS.cc, lines 159-167; first.cc, lines 108-117) -/

/-- The error classes of the specification.  The scripts contain no statement
that raises `invalidSpec`. -/
inductive ScenarioError where
  | invalidSpec
  | addressSpaceExhausted
  deriving DecidableEq, Repr

/-- The 32-bit value of the dotted address `a.b.c.d`. -/
def ipv4 (a b c d : Nat) : Nat := a * 2 ^ 24 + b * 2 ^ 16 + c * 2 ^ 8 + d

/-- The mask `255.255.255.0`. -/
def mask24 : Nat := ipv4 255 255 255 0

/-- Modelled from the spec: the state of the class `Ipv4AddressHelper` of the
internet module, whose source is not part of the scripts: the base network,
the mask, and the host id that the next interface receives. -/
structure Ipv4AddressHelper where
  network : Nat
  mask : Nat
  address : Nat
  deriving DecidableEq, Repr

/-- Modelled from the spec: `Ipv4AddressHelper::SetBase`, missing from the
scripts.  Allocation starts immediately after the base network address. -/
def Ipv4AddressHelper.setBase (network mask : Nat) : Ipv4AddressHelper :=
  ⟨network, mask, 1⟩

/-- Modelled from the spec: the number of host addresses available under a
mask.  The all-zero host id is the network id and the all-one host id is the
broadcast address, so a /24 offers 254 host ids. -/
def hostCapacity (mask : Nat) : Nat := (UINT32_MOD - 1 - mask) - 1

/-- Modelled from the spec: allocation of one address by `Ipv4AddressHelper`,
missing from the scripts.  The interface receives the current host id, the
host id increases by one, and the request fails with `addressSpaceExhausted`
once the host ids under the mask are used up. -/
def Ipv4AddressHelper.newAddress (h : Ipv4AddressHelper) :
    Except ScenarioError (Nat × Ipv4AddressHelper) :=
  if h.address ≤ hostCapacity h.mask then
    .ok (h.network + h.address, ⟨h.network, h.mask, h.address + 1⟩)
  else
    .error .addressSpaceExhausted

/-- Modelled from the spec: `Ipv4AddressHelper::Assign`, missing from the
scripts, on a container of `count` devices: one address per device in
installation order. -/
def Ipv4AddressHelper.assign (h : Ipv4AddressHelper) :
    Nat → Except ScenarioError (List Nat × Ipv4AddressHelper)
  | 0 => .ok ([], h)
  | count + 1 =>
    match h.newAddress with
    | .error e => .error e
    | .ok (a, h1) =>
      match h1.assign count with
      | .error e => .error e
      | .ok (rest, h2) => .ok (a :: rest, h2)

/-- The host id of an address inside the network `network`. -/
def hostId (network addr : Nat) : Nat := addr - network

/-! ## The scripts as sequences of library calls -/

/-- The variables of testBAS.cc that the command line can set (lines 54-64):
`nWifi`, `cwmin` and `cwmax` are `uint32_t`, `simulationTime` is a `double`. -/
structure Params where
  nWifi : Nat
  cwmin : Nat
  cwmax : Nat
  simulationTime : ℚ
  deriving DecidableEq, Repr

/-- The initial values of lines 54-64. -/
def defaultParams : Params := ⟨5, 31, 1023, 50⟩

/-- The values given on the command line for the four names registered with
`cmd.AddValue` (lines 68-71); `none` when a name is not given. -/
structure CommandLine where
  nWifi : Option Nat
  simulationTime : Option ℚ
  cwmin : Option Nat
  cwmax : Option Nat

/-- The variables after `cmd.Parse (argc, argv)` (line 72): a variable keeps
its initial value unless the command line gives one. -/
def parse (cmd : CommandLine) : Params :=
  ⟨cmd.nWifi.getD defaultParams.nWifi,
   cmd.cwmin.getD defaultParams.cwmin,
   cmd.cwmax.getD defaultParams.cwmax,
   cmd.simulationTime.getD defaultParams.simulationTime⟩

/-- The node containers of the two scripts. -/
inductive Container where
  | wifiStaNode
  | wifiApNode
  | nodes
  deriving DecidableEq, Repr

/-- The two kinds of traffic generator. -/
inductive Role where
  | server
  | client
  deriving DecidableEq, Repr

/-- The library calls of the scripts that the properties speak about.  Calls
that only set an attribute of a helper object (channel, phy, mac, rate manager,
link, client attributes), and the output statements, are not recorded. -/
inductive Action where
  /-- Call `Config::SetDefault (key, value)`. -/
  | setDefault (key : String) (value : Nat)
  /-- Call `c.Create (count)`. -/
  | createNodes (c : Container) (count : Nat)
  /-- Call `wifi.Install` or `pointToPoint.Install`: one device per node of `c`. -/
  | installDevices (c : Container) (count : Nat)
  /-- Call `positionAlloc->Add`: `index` numbers the stored positions from 0. -/
  | addPosition (index : Nat)
  /-- Call `mobility.Install (c)`. -/
  | installMobility (c : Container)
  /-- Call `stack.Install (c)`. -/
  | installStack (c : Container)
  /-- Call `address.SetBase (network, mask)`. -/
  | setBase (network mask : Nat)
  /-- Call `address.Assign` on the devices of `c`, with the addresses handed out. -/
  | assignAddresses (c : Container) (addresses : List Nat)
  /-- Call `Install` of a server or client helper on node `index` of `c`. -/
  | installApp (role : Role) (c : Container) (index : Nat)
  /-- Call `Start (Seconds (t))` on the application of node `index` of `c`. -/
  | appStart (role : Role) (c : Container) (index : Nat) (t : ℚ)
  /-- Call `Stop (Seconds (t))` on the application of node `index` of `c`. -/
  | appStop (role : Role) (c : Container) (index : Nat) (t : ℚ)
  /-- Call `Ipv4GlobalRoutingHelper::PopulateRoutingTables ()`. -/
  | populateRoutingTables
  /-- Call `Simulator::Stop (Seconds (t))`. -/
  | simulatorStop (t : ℚ)
  /-- Call `Simulator::Run ()`. -/
  | simulatorRun
  /-- Call `Simulator::Destroy ()`. -/
  | simulatorDestroy
  deriving DecidableEq, Repr

/-- How far a script gets, with the calls it has made in program order. -/
inductive Outcome where
  /-- Function `main` reached `return 0`. -/
  | completed (calls : List Action)
  /-- The address allocator raised `e` after the calls `calls`. -/
  | aborted (e : ScenarioError) (calls : List Action)
  /-- The loop budget ran out inside the client-installation loop. -/
  | unfinished (calls : List Action)
  deriving DecidableEq, Repr

/-- The calls made so far. -/
def Outcome.calls : Outcome → List Action
  | .completed calls => calls
  | .aborted _ calls => calls
  | .unfinished calls => calls

/-- Whether `main` reached `return 0`. -/
def Outcome.isCompleted : Outcome → Bool
  | .completed _ => true
  | _ => false

/-- The network `192.168.1.0` of testBAS.cc, line 160. -/
def wifiNetwork : Nat := ipv4 192 168 1 0

/-- The network `10.1.1.0` of first.cc, line 109. -/
def p2pNetwork : Nat := ipv4 10 1 1 0

/-- The six `Config::SetDefault` calls of testBAS.cc, lines 81-90. -/
def defaultActions (p : Params) : List Action :=
  [ .setDefault "ns3::WifiRemoteStationManager::FragmentationThreshold" 99999990,
    .setDefault "ns3::WifiRemoteStationManager::RtsCtsThreshold" 999999,
    .setDefault "ns3::WifiRemoteStationManager::MaxSsrc" 10000,
    .setDefault "ns3::WifiRemoteStationManager::MaxSlrc" 10000,
    .setDefault "ns3::Txop::MinCw" p.cwmin,
    .setDefault "ns3::Txop::MaxCw" p.cwmax ]

/-- The calls of testBAS.cc, lines 102-157: node creation, device
installation, the position list (the origin and one position per station),
mobility and the internet stack. -/
def topologyActions (p : Params) : List Action :=
  [ .createNodes .wifiStaNode p.nWifi,
    .createNodes .wifiApNode 1,
    .installDevices .wifiStaNode p.nWifi,
    .installDevices .wifiApNode 1 ]
  ++ (List.range (p.nWifi + 1)).map Action.addPosition
  ++ [ .installMobility .wifiApNode,
       .installMobility .wifiStaNode,
       .installStack .wifiApNode,
       .installStack .wifiStaNode ]

/-- The calls of testBAS.cc, lines 159-167, and the error that stops them, if
any: `SetBase`, then `Assign (staDevice)` on `nWifi` devices, then
`Assign (apDevice)` on one device, with the same helper. -/
def addressActions (nWifi : Nat) : List Action × Option ScenarioError :=
  match (Ipv4AddressHelper.setBase wifiNetwork mask24).assign nWifi with
  | .error e => ([.setBase wifiNetwork mask24], some e)
  | .ok (sta, h1) =>
    match h1.assign 1 with
    | .error e =>
      ([.setBase wifiNetwork mask24, .assignAddresses .wifiStaNode sta], some e)
    | .ok (ap, _) =>
      ([.setBase wifiNetwork mask24, .assignAddresses .wifiStaNode sta,
        .assignAddresses .wifiApNode ap], none)

/-- The value of the `double` expression `simulationTime + 1` of lines 178,
190 and 195. -/
def stopTime (p : Params) : ℚ := addDouble p.simulationTime 1

/-- The calls of testBAS.cc, lines 174-178: the server on node 0 of
`wifiApNode`, started at 0 and stopped at `simulationTime + 1`. -/
def serverActions (p : Params) : List Action :=
  [ .installApp .server .wifiApNode 0,
    .appStart .server .wifiApNode 0 0,
    .appStop .server .wifiApNode 0 (stopTime p) ]

/-- The body of the client-installation loop (lines 188-190) for index `i`. -/
def clientActions (p : Params) (i : Nat) : List Action :=
  [ .installApp .client .wifiStaNode i,
    .appStart .client .wifiStaNode i 1,
    .appStop .client .wifiStaNode i (stopTime p) ]

/-- The control of the loop `for (uint16_t i=0; i<=nWifi-1; i++)` of line 186,
started with counter `i`.  `nWifi - 1` is a `uint32_t` value and `i` is
converted to `unsigned` for the comparison; `i++` is taken modulo 2^16.
`fuel` bounds the number of evaluations of the loop condition.  The result is
the list of values of `i` for which the body ran, in order, and whether the
loop was left. -/
def clientLoop (nWifi : Nat) : Nat → Nat → List Nat × Bool
  | 0, _ => ([], false)
  | fuel + 1, i =>
    if i ≤ subOneU32 nWifi then
      let r := clientLoop nWifi fuel (incU16 i)
      (i :: r.1, r.2)
    else
      ([], true)

/-- The calls of testBAS.cc, lines 193-206. -/
def finalActions (p : Params) : List Action :=
  [ .populateRoutingTables,
    .simulatorStop (stopTime p),
    .simulatorRun,
    .simulatorDestroy ]

/-- The function `main` of testBAS.cc after `cmd.Parse`, for the variable
values `p`. -/
def wirelessMain (fuel : Nat) (p : Params) : Outcome :=
  let setup := defaultActions p ++ topologyActions p
  match addressActions p.nWifi with
  | (addressing, some e) => .aborted e (setup ++ addressing)
  | (addressing, none) =>
    let wired := setup ++ addressing ++ serverActions p
    match clientLoop p.nWifi fuel 0 with
    | (visited, false) => .unfinished (wired ++ visited.flatMap (clientActions p))
    | (visited, true) =>
      .completed (wired ++ visited.flatMap (clientActions p) ++ finalActions p)

/-- The function `main` of first.cc (lines 70-153). -/
def firstMain : Outcome :=
  let setup : List Action :=
    [ .createNodes .nodes 2, .installDevices .nodes 2, .installStack .nodes,
      .setBase p2pNetwork mask24 ]
  match (Ipv4AddressHelper.setBase p2pNetwork mask24).assign 2 with
  | .error e => .aborted e setup
  | .ok (interfaces, _) =>
    .completed (setup ++
      [ .assignAddresses .nodes interfaces,
        .installApp .server .nodes 1,
        .appStart .server .nodes 1 1,
        .appStop .server .nodes 1 10,
        .installApp .client .nodes 0,
        .appStart .client .nodes 0 2,
        .appStop .client .nodes 0 10,
        .simulatorRun,
        .simulatorDestroy ])

/-- Whether a call is a `Config::SetDefault`. -/
def Action.isSetDefault : Action → Bool
  | .setDefault _ _ => true
  | _ => false

/-- Whether a call installs network devices. -/
def Action.isInstallDevices : Action → Bool
  | .installDevices _ _ => true
  | _ => false

/-- The loop of line 186 terminates when some number of evaluations of its
condition leaves it. -/
def clientLoopTerminates (nWifi : Nat) : Prop :=
  ∃ fuel, (clientLoop nWifi fuel 0).2 = true

/-- The calls made by the client-installation loop of lines 186-191 within
`fuel` evaluations of its condition: the loop body for each visited index. -/
def clientLoopCalls (fuel : Nat) (p : Params) : List Action :=
  (clientLoop p.nWifi fuel 0).1.flatMap (clientActions p)

/-- The station index of a client installation, if the call is one. -/
def Action.clientIndex : Action → Option Nat
  | .installApp .client .wifiStaNode i => some i
  | _ => none

/-- The station indices on which a sequence of calls installs a client, in
order. -/
def installedClients (calls : List Action) : List Nat :=
  calls.filterMap Action.clientIndex

/-! ## Properties of binary64 rounding -/

/-- Rounding to an integer does not go below the floor. -/
theorem floor_le_roundHalfEven (x : ℚ) : ⌊x⌋ ≤ roundHalfEven x := by
  unfold roundHalfEven
  split_ifs <;> omega

/-- Rounding to an integer does not go above the floor plus one. -/
theorem roundHalfEven_le_floor_succ (x : ℚ) : roundHalfEven x ≤ ⌊x⌋ + 1 := by
  unfold roundHalfEven
  split_ifs <;> omega

/-- Rounding to an integer does not fall below an integer lower bound. -/
theorem le_roundHalfEven (x : ℚ) (n : ℤ) (h : (n : ℚ) ≤ x) : n ≤ roundHalfEven x :=
  le_trans (Int.le_floor.mpr h) (floor_le_roundHalfEven x)

/-- Rounding to an integer does not exceed an integer upper bound. -/
theorem roundHalfEven_le (x : ℚ) (n : ℤ) (h : x ≤ (n : ℚ)) : roundHalfEven x ≤ n := by
  have hf : (⌊x⌋ : ℚ) ≤ x := Int.floor_le x
  by_cases hx : x = (⌊x⌋ : ℚ)
  · have h0 : x - (⌊x⌋ : ℚ) < 1 / 2 := by rw [← hx]; norm_num
    have hfl : ⌊x⌋ ≤ n := by exact_mod_cast hf.trans h
    unfold roundHalfEven
    rw [if_pos h0]
    exact hfl
  · have hlt : (⌊x⌋ : ℚ) < (n : ℚ) := lt_of_lt_of_le (lt_of_le_of_ne hf (Ne.symm hx)) h
    have hlt' : ⌊x⌋ < n := by exact_mod_cast hlt
    have := roundHalfEven_le_floor_succ x
    omega

/-- An integer rounds to itself. -/
theorem roundHalfEven_intCast (n : ℤ) : roundHalfEven (n : ℚ) = n :=
  le_antisymm (roundHalfEven_le _ n le_rfl) (le_roundHalfEven _ n le_rfl)

/-- Above a half-integer the rounding goes up. -/
theorem succ_le_roundHalfEven (x : ℚ) (n : ℤ) (h : (n : ℚ) + 1 / 2 < x) :
    n + 1 ≤ roundHalfEven x := by
  have hn : n ≤ ⌊x⌋ := Int.le_floor.mpr (by linarith)
  rcases lt_or_eq_of_le hn with hlt | heq
  · have := floor_le_roundHalfEven x; omega
  · have h1 : ¬ (x - (⌊x⌋ : ℚ) < 1 / 2) := by rw [← heq]; linarith
    have h2 : 1 / 2 < x - (⌊x⌋ : ℚ) := by rw [← heq]; linarith
    unfold roundHalfEven
    rw [if_neg h1, if_pos h2]
    omega

/-- Up to a half-integer above an even integer the rounding stays. -/
theorem roundHalfEven_le_even (x : ℚ) (n : ℤ) (hn : n % 2 = 0) (h : x ≤ (n : ℚ) + 1 / 2) :
    roundHalfEven x ≤ n := by
  by_cases hx : x ≤ (n : ℚ)
  · exact roundHalfEven_le x n hx
  · push_neg at hx
    have hfl : ⌊x⌋ = n := by
      rw [Int.floor_eq_iff]
      constructor <;> linarith
    unfold roundHalfEven
    rw [hfl]
    split_ifs <;> first | exact le_rfl | (exfalso; linarith)

/-- Inside a normal binade the unit in the last place is 52 binary places
below the binade. -/
theorem ulpExp_of_mem (x : ℚ) (k : ℤ) (hk : -1022 ≤ k) (h1 : (2 : ℚ) ^ k ≤ x)
    (h2 : x < (2 : ℚ) ^ (k + 1)) : ulpExp x = k - 52 := by
  have hpos : (0 : ℚ) < x := lt_of_lt_of_le (by positivity) h1
  have hlog : Int.log 2 |x| = k := by
    rw [abs_of_pos hpos]
    apply le_antisymm
    · have := (Int.lt_zpow_iff_log_lt (b := 2) (by norm_num) hpos (x := k + 1)).mp
        (by exact_mod_cast h2)
      omega
    · exact (Int.zpow_le_iff_le_log (b := 2) (by norm_num) hpos).mp (by exact_mod_cast h1)
  unfold ulpExp
  rw [hlog, max_eq_left hk]


/-- Rounding to `double` does not fall below a power of two that is a
multiple of the unit in the last place. -/
theorem le_roundToDouble_aux (x : ℚ) (k : ℤ) (he : ulpExp x ≤ k) (h : (2 : ℚ) ^ k ≤ x) :
    (2 : ℚ) ^ k ≤ roundToDouble x := by
  obtain ⟨n, hn⟩ : ∃ n : ℕ, k - ulpExp x = n := ⟨(k - ulpExp x).toNat, by omega⟩
  have hpow : (2 : ℚ) ^ k = ((2 ^ n : ℤ) : ℚ) * 2 ^ ulpExp x := by
    have : k = (n : ℤ) + ulpExp x := by omega
    rw [this, zpow_add₀ (by norm_num), zpow_natCast]
    push_cast
    rfl
  have hm : (2 ^ n : ℤ) ≤ roundHalfEven (x / 2 ^ ulpExp x) := by
    apply le_roundHalfEven
    rw [le_div_iff₀ (by positivity), ← hpow]
    exact h
  unfold roundToDouble
  rw [hpow]
  exact mul_le_mul_of_nonneg_right (by exact_mod_cast hm) (by positivity)

/-- Rounding to `double` does not fall below a representable power of two. -/
theorem le_roundToDouble (x : ℚ) (k : ℤ) (hk : -1074 ≤ k) (h : (2 : ℚ) ^ k ≤ x) :
    (2 : ℚ) ^ k ≤ roundToDouble x := by
  have hpos : (0 : ℚ) < x := lt_of_lt_of_le (by positivity) h
  have hlog : k ≤ Int.log 2 |x| := by
    rw [abs_of_pos hpos]
    exact (Int.zpow_le_iff_le_log (b := 2) (by norm_num) hpos).mp (by exact_mod_cast h)
  rcases le_total (Int.log 2 |x|) (-1022) with h1 | h1
  · exact le_roundToDouble_aux x k (by unfold ulpExp; rw [max_eq_right h1]; omega) h
  · have hL : (2 : ℚ) ^ Int.log 2 |x| ≤ x := by
      have := Int.zpow_log_le_self (b := 2) (r := x) (by norm_num) hpos
      rw [abs_of_pos hpos]
      exact_mod_cast this
    have := le_roundToDouble_aux x (Int.log 2 |x|)
      (by unfold ulpExp; rw [max_eq_left h1]; omega) hL
    exact le_trans (zpow_le_zpow_right₀ (by norm_num) hlog) this

/-- Rounding to `double` does not exceed a power of two that is a multiple of
the unit in the last place. -/
theorem roundToDouble_le (x : ℚ) (k : ℤ) (he : ulpExp x ≤ k) (h : x ≤ (2 : ℚ) ^ k) :
    roundToDouble x ≤ (2 : ℚ) ^ k := by
  obtain ⟨n, hn⟩ : ∃ n : ℕ, k - ulpExp x = n := ⟨(k - ulpExp x).toNat, by omega⟩
  have hpow : (2 : ℚ) ^ k = ((2 ^ n : ℤ) : ℚ) * 2 ^ ulpExp x := by
    have : k = (n : ℤ) + ulpExp x := by omega
    rw [this, zpow_add₀ (by norm_num), zpow_natCast]
    push_cast
    rfl
  have hm : roundHalfEven (x / 2 ^ ulpExp x) ≤ (2 ^ n : ℤ) := by
    apply roundHalfEven_le
    rw [div_le_iff₀ (by positivity), ← hpow]
    exact h
  unfold roundToDouble
  rw [hpow]
  exact mul_le_mul_of_nonneg_right (by exact_mod_cast hm) (by positivity)

/-- A rational of the form `m * 2 ^ (k - 52)` in the binade `[2 ^ k, 2 ^ (k + 1))`
of a normal exponent is a `double`. -/
theorem roundToDouble_eq_self (x : ℚ) (k m : ℤ) (hk : -1022 ≤ k) (h1 : (2 : ℚ) ^ k ≤ x)
    (h2 : x < (2 : ℚ) ^ (k + 1)) (hm : x = (m : ℚ) * 2 ^ (k - 52)) :
    roundToDouble x = x := by
  unfold roundToDouble
  rw [ulpExp_of_mem x k hk h1 h2]
  have : x / 2 ^ (k - 52) = (m : ℚ) := by
    rw [hm, mul_div_assoc, div_self (by positivity), mul_one]
  rw [this, roundHalfEven_intCast, ← hm]

/-- The number 1 is a `double`. -/
theorem roundToDouble_one : roundToDouble 1 = 1 :=
  roundToDouble_eq_self 1 0 (2 ^ 52) (by norm_num) (by norm_num) (by norm_num) (by norm_num)

/-- The number 51 is a `double`. -/
theorem roundToDouble_51 : roundToDouble 51 = 51 :=
  roundToDouble_eq_self 51 5 (51 * 2 ^ 47) (by norm_num) (by norm_num) (by norm_num)
    (by norm_num)

/-- The `double` sum `t + 1` exceeds 1 exactly when `t` exceeds 2^-53. -/
theorem one_lt_add_one (t : ℚ) (h : 1 / 2 ^ 53 < t) : 1 < roundToDouble (t + 1) := by
  rcases lt_or_le (t + 1) 2 with h2 | h2
  · have he : ulpExp (t + 1) = 0 - 52 :=
      ulpExp_of_mem (t + 1) 0 (by norm_num) (by norm_num; linarith [show (0:ℚ) < 1 / 2 ^ 53 by positivity])
        (by norm_num; linarith)
    have hm : (2 ^ 52 : ℤ) + 1 ≤ roundHalfEven ((t + 1) / 2 ^ ulpExp (t + 1)) := by
      apply succ_le_roundHalfEven
      rw [he, lt_div_iff₀ (by positivity)]
      norm_num
      norm_num at h
      linarith
    unfold roundToDouble
    rw [he] at hm ⊢
    have hq : ((2 ^ 52 : ℤ) : ℚ) + 1 ≤ (roundHalfEven ((t + 1) / 2 ^ ((0 : ℤ) - 52)) : ℚ) := by
      exact_mod_cast hm
    have hpos : (0 : ℚ) < 2 ^ ((0 : ℤ) - 52) := by positivity
    calc (1 : ℚ) < (((2 ^ 52 : ℤ) : ℚ) + 1) * 2 ^ ((0 : ℤ) - 52) := by norm_num
      _ ≤ _ := mul_le_mul_of_nonneg_right hq hpos.le
  · have := le_roundToDouble (t + 1) 1 (by norm_num) (by norm_num; linarith)
    norm_num at this
    linarith

/-- The `double` sum `t + 1` is at most 1 when `-1 ≤ t ≤ 2^-53`. -/
theorem add_one_le_one (t : ℚ) (h0 : -1 ≤ t) (h : t ≤ 1 / 2 ^ 53) :
    roundToDouble (t + 1) ≤ 1 := by
  rcases lt_or_le (t + 1) 1 with h1 | h1
  · rcases eq_or_lt_of_le (show (0 : ℚ) ≤ t + 1 by linarith) with hz | hz
    · rw [← hz]
      unfold roundToDouble
      norm_num [roundHalfEven]
    · have hlog : Int.log 2 |t + 1| < 0 := by
        rw [abs_of_pos hz]
        exact (Int.lt_zpow_iff_log_lt (b := 2) (by norm_num) hz (x := 0)).mp
          (by norm_num; linarith)
      have he : ulpExp (t + 1) ≤ 0 := by
        unfold ulpExp
        rcases le_total (Int.log 2 |t + 1|) (-1022) with h3 | h3
        · rw [max_eq_right h3]; omega
        · rw [max_eq_left h3]; omega
      have := roundToDouble_le (t + 1) 0 he (by norm_num; linarith)
      simpa using this
  · have he : ulpExp (t + 1) = 0 - 52 :=
      ulpExp_of_mem (t + 1) 0 (by norm_num) (by norm_num; linarith)
        (by norm_num; norm_num at h; linarith)
    have hm : roundHalfEven ((t + 1) / 2 ^ ulpExp (t + 1)) ≤ (2 ^ 52 : ℤ) := by
      apply roundHalfEven_le_even _ _ (by norm_num)
      rw [he, div_le_iff₀ (by positivity)]
      norm_num
      norm_num at h
      linarith
    unfold roundToDouble
    rw [he] at hm ⊢
    have hq : (roundHalfEven ((t + 1) / 2 ^ ((0 : ℤ) - 52)) : ℚ) ≤ ((2 ^ 52 : ℤ) : ℚ) := by
      exact_mod_cast hm
    have hpos : (0 : ℚ) < 2 ^ ((0 : ℤ) - 52) := by positivity
    calc _ ≤ ((2 ^ 52 : ℤ) : ℚ) * 2 ^ ((0 : ℤ) - 52) := mul_le_mul_of_nonneg_right hq hpos.le
      _ = 1 := by norm_num


/-- Rounding to an integer moves a rational by at most one half. -/
theorem abs_roundHalfEven_sub_le (x : ℚ) : |(roundHalfEven x : ℚ) - x| ≤ 1 / 2 := by
  have h1 : (⌊x⌋ : ℚ) ≤ x := Int.floor_le x
  have h2 : x < (⌊x⌋ : ℚ) + 1 := Int.lt_floor_add_one x
  unfold roundHalfEven
  rw [abs_le]
  split_ifs <;> push_cast <;> constructor <;> linarith

/-- Inside a binade the logarithm is the exponent of the binade. -/
theorem log_of_mem (x : ℚ) (k : ℤ) (h1 : (2 : ℚ) ^ k ≤ x) (h2 : x < (2 : ℚ) ^ (k + 1)) :
    Int.log 2 |x| = k := by
  have hpos : (0 : ℚ) < x := lt_of_lt_of_le (by positivity) h1
  rw [abs_of_pos hpos]
  apply le_antisymm
  · have := (Int.lt_zpow_iff_log_lt (b := 2) (by norm_num) hpos (x := k + 1)).mp
      (by exact_mod_cast h2)
    omega
  · exact (Int.zpow_le_iff_le_log (b := 2) (by norm_num) hpos).mp (by exact_mod_cast h1)

/-- Every positive rational lies in the binade of its logarithm. -/
theorem mem_binade (x : ℚ) (hpos : 0 < x) :
    (2 : ℚ) ^ Int.log 2 |x| ≤ x ∧ x < (2 : ℚ) ^ (Int.log 2 |x| + 1) := by
  rw [abs_of_pos hpos]
  constructor
  · have := Int.zpow_log_le_self (b := 2) (r := x) (by norm_num) hpos
    exact_mod_cast this
  · have := Int.lt_zpow_succ_log_self (b := 2) (by norm_num) x
    exact_mod_cast this

/-- A normal positive rational has a normal logarithm. -/
theorem log_ge_of_normal (x : ℚ) (h : (2 : ℚ) ^ (-1022 : ℤ) ≤ x) : -1022 ≤ Int.log 2 |x| := by
  have hpos : (0 : ℚ) < x := lt_of_lt_of_le (by positivity) h
  rw [abs_of_pos hpos]
  exact (Int.zpow_le_iff_le_log (b := 2) (by norm_num) hpos).mp (by exact_mod_cast h)

/-- In the normal range, rounding to `double` has relative error at most
2^-53. -/
theorem abs_roundToDouble_sub_le (x : ℚ) (h : (2 : ℚ) ^ (-1022 : ℤ) ≤ x) :
    |roundToDouble x - x| ≤ x / 2 ^ 53 := by
  have hpos : (0 : ℚ) < x := lt_of_lt_of_le (by positivity) h
  have hL := log_ge_of_normal x h
  obtain ⟨b1, _⟩ := mem_binade x hpos
  have e1 : ulpExp x = Int.log 2 |x| - 52 := ulpExp_of_mem x _ hL b1 (mem_binade x hpos).2
  have hu : (0 : ℚ) < 2 ^ ulpExp x := by positivity
  have hr := abs_roundHalfEven_sub_le (x / 2 ^ ulpExp x)
  have hrw : roundToDouble x - x
      = ((roundHalfEven (x / 2 ^ ulpExp x) : ℚ) - x / 2 ^ ulpExp x) * 2 ^ ulpExp x := by
    unfold roundToDouble
    field_simp
  rw [hrw, abs_mul, abs_of_pos hu]
  have hule : (2 : ℚ) ^ ulpExp x ≤ x / 2 ^ 52 := by
    rw [e1, zpow_sub₀ (by norm_num)]
    have : (2 : ℚ) ^ (52 : ℤ) = 2 ^ 52 := by norm_num
    rw [this]
    exact div_le_div_of_nonneg_right b1 (by positivity)
  calc _ ≤ 1 / 2 * 2 ^ ulpExp x := mul_le_mul_of_nonneg_right hr hu.le
    _ ≤ 1 / 2 * (x / 2 ^ 52) := by linarith
    _ = x / 2 ^ 53 := by ring

/-! ## Properties of the throughput expression -/

/-- Without wrap-around the numerator of line 203 is the exact product. -/
theorem throughputBits_of_lt (x s : Nat) (h : x * s * 8 < UINT64_MOD) :
    throughputBits x s = x * s * 8 := by
  have h1 : x * s < UINT64_MOD := by omega
  unfold throughputBits mulU64
  rw [Nat.mod_eq_of_lt h1, Nat.mod_eq_of_lt h]

/-- Zero is a `double`. -/
theorem roundToDouble_zero : roundToDouble 0 = 0 := by
  unfold roundToDouble
  norm_num [roundHalfEven]

/-- Zero rounds to the finite `double` zero. -/
theorem toDouble_zero : toDouble 0 = .finite 0 := by
  unfold toDouble
  rw [roundToDouble_zero]
  norm_num [DOUBLE_LIMIT]

/-- Below a half-integer the rounding does not go above the integer. -/
theorem roundHalfEven_le_of_lt (x : ℚ) (n : ℤ) (h : x < (n : ℚ) + 1 / 2) :
    roundHalfEven x ≤ n := by
  have hfl : ⌊x⌋ ≤ n := by
    have h1 : (⌊x⌋ : ℚ) ≤ x := Int.floor_le x
    have : (⌊x⌋ : ℚ) < (n : ℚ) + 1 := by linarith
    have : ⌊x⌋ < n + 1 := by exact_mod_cast this
    omega
  rcases lt_or_eq_of_le hfl with hlt | heq
  · have := roundHalfEven_le_floor_succ x; omega
  · unfold roundHalfEven
    rw [if_pos (by rw [heq]; linarith), heq]

/-- A rational within one half of an integer rounds to that integer. -/
theorem roundHalfEven_eq (x : ℚ) (n : ℤ) (h1 : (n : ℚ) - 1 / 2 < x) (h2 : x < (n : ℚ) + 1 / 2) :
    roundHalfEven x = n := by
  apply le_antisymm (roundHalfEven_le_of_lt x n h2)
  have := succ_le_roundHalfEven x (n - 1) (by push_cast; linarith)
  omega

/-- The unit in the last place is at most 52 binary places below any power of
two that bounds the number. -/
theorem ulpExp_le (x : ℚ) (k : ℤ) (hk : -1022 ≤ k) (hpos : 0 < x) (h : x ≤ (2 : ℚ) ^ k) :
    ulpExp x ≤ k := by
  have hlog : Int.log 2 |x| ≤ k := by
    rw [abs_of_pos hpos]
    by_contra hc
    push_neg at hc
    have := (Int.zpow_le_iff_le_log (b := 2) (r := x) (by norm_num) hpos (x := k + 1)).mpr
      (by omega)
    have h3 : (2 : ℚ) ^ k < (2 : ℚ) ^ (k + 1) := zpow_lt_zpow_right₀ (by norm_num) (by omega)
    have h4 : (2 : ℚ) ^ (k + 1) ≤ x := by exact_mod_cast this
    linarith
  unfold ulpExp
  rcases le_total (Int.log 2 |x|) (-1022) with h3 | h3
  · rw [max_eq_right h3]; omega
  · rw [max_eq_left h3]; omega

/-- A normal rational of magnitude at most 2^1023 rounds to a positive finite
`double` with relative error at most 2^-53. -/
theorem toDouble_normal (x : ℚ) (h1 : (2 : ℚ) ^ (-1022 : ℤ) ≤ x) (h2 : x ≤ (2 : ℚ) ^ (1023 : ℤ)) :
    toDouble x = .finite (roundToDouble x) ∧ |roundToDouble x - x| ≤ x / 2 ^ 53
      ∧ 0 < roundToDouble x := by
  have hpos : (0 : ℚ) < x := lt_of_lt_of_le (by positivity) h1
  have hr := le_roundToDouble x (-1022) (by norm_num) h1
  have hrpos : (0 : ℚ) < roundToDouble x := lt_of_lt_of_le (by positivity) hr
  have hle := roundToDouble_le x 1023 (ulpExp_le x 1023 (by norm_num) hpos h2) h2
  have hlim : (2 : ℚ) ^ (1023 : ℤ) < DOUBLE_LIMIT := by
    unfold DOUBLE_LIMIT
    rw [(zpow_natCast (2 : ℚ) 1024).symm]
    exact zpow_lt_zpow_right₀ (by norm_num) (by norm_num)
  refine ⟨?_, abs_roundToDouble_sub_le x h1, hrpos⟩
  unfold toDouble
  rw [if_neg (by linarith), if_neg (by linarith)]

/-- A rational of at least 2^-250 is in the normal range. -/
theorem normal_lo (x : ℚ) (h : 1 / 2 ^ 250 ≤ x) : (2 : ℚ) ^ (-1022 : ℤ) ≤ x := by
  have h1 : (2 : ℚ) ^ (-1022 : ℤ) ≤ (2 : ℚ) ^ (-250 : ℤ) :=
    zpow_le_zpow_right₀ (by norm_num) (by norm_num)
  have h2 : (2 : ℚ) ^ (-250 : ℤ) = 1 / 2 ^ 250 := by
    rw [zpow_neg, one_div, (zpow_natCast (2 : ℚ) 250).symm]
    rfl
  rw [h2] at h1
  exact le_trans h1 h

/-- A rational of at most 2^250 is below the overflow threshold. -/
theorem normal_hi (x : ℚ) (h : x ≤ 2 ^ 250) : x ≤ (2 : ℚ) ^ (1023 : ℤ) := by
  have h1 : (2 : ℚ) ^ (250 : ℤ) ≤ (2 : ℚ) ^ (1023 : ℤ) :=
    zpow_le_zpow_right₀ (by norm_num) (by norm_num)
  have h2 : (2 : ℚ) ^ (250 : ℤ) = 2 ^ 250 := by
    rw [(zpow_natCast (2 : ℚ) 250).symm]
    rfl
  rw [h2] at h1
  exact le_trans h h1

/-- Bounds of a rounded value from its relative error. -/
theorem bounds_of_abs (r x : ℚ) (h : |r - x| ≤ x / 2 ^ 53) :
    x * (1 - 1 / 2 ^ 53) ≤ r ∧ r ≤ x * (1 + 1 / 2 ^ 53) := by
  rw [abs_le] at h
  constructor <;> linarith [h.1, h.2]

/-- The `double` quotient of the converted count and the `double` product
`simulationTime * 1000000.0`, for a count below 2^64 and a time between
2^-100 and 2^100, is finite and within relative error 2^-51 of the exact
quotient. -/
theorem throughput_error (n : Nat) (T : ℚ) (hn : n < UINT64_MOD)
    (hT1 : 1 / 2 ^ 100 ≤ T) (hT2 : T ≤ 2 ^ 100) :
    ∃ q, Double.div (toDouble (n : ℚ)) (Double.mul (.finite T) (.finite 1000000)) = .finite q ∧
      |q - (n : ℚ) / (T * 1000000)| ≤ (n : ℚ) / (T * 1000000) / 2 ^ 51 := by
  have hTpos : (0 : ℚ) < T := lt_of_lt_of_le (by positivity) hT1
  have hx1 : 1 / 2 ^ 100 ≤ T * 1000000 := by nlinarith
  have hx2 : T * 1000000 ≤ 2 ^ 120 := by
    have : (1000000 : ℚ) ≤ 2 ^ 20 := by norm_num
    calc T * 1000000 ≤ 2 ^ 100 * 2 ^ 20 := mul_le_mul hT2 this (by norm_num) (by positivity)
      _ = 2 ^ 120 := by rw [← pow_add]
  have hxpos : (0 : ℚ) < T * 1000000 := by positivity
  obtain ⟨hB, hBerr, hBpos⟩ := toDouble_normal (T * 1000000)
    (normal_lo _ (le_trans (by norm_num) hx1)) (normal_hi _ (le_trans hx2 (by norm_num)))
  obtain ⟨hb1, hb2⟩ := bounds_of_abs _ _ hBerr
  have hmul : Double.mul (.finite T) (.finite 1000000)
      = .finite (roundToDouble (T * 1000000)) := hB
  rw [hmul]
  rcases Nat.eq_zero_or_pos n with h0 | hpos
  · subst h0
    refine ⟨0, ?_, by simp⟩
    simp [toDouble_zero, Double.div, ne_of_gt hBpos]
  have hn1 : (1 : ℚ) ≤ (n : ℚ) := by exact_mod_cast hpos
  have hn2 : (n : ℚ) ≤ 2 ^ 64 := by
    have : (n : ℚ) < ((2 ^ 64 : ℕ) : ℚ) := by exact_mod_cast hn
    push_cast at this
    exact this.le
  obtain ⟨hA, hAerr, hApos⟩ := toDouble_normal (n : ℚ)
    (normal_lo _ (le_trans (by norm_num) hn1)) (normal_hi _ (le_trans hn2 (by norm_num)))
  obtain ⟨ha1, ha2⟩ := bounds_of_abs _ _ hAerr
  rw [hA]
  simp only [Double.div, if_neg (ne_of_gt hBpos)]
  set a := roundToDouble (n : ℚ) with ha
  set b := roundToDouble (T * 1000000) with hb
  set x := T * 1000000 with hx
  have hq0pos : 0 < a / b := div_pos hApos hBpos
  have hblo : 1 / 2 ^ 101 ≤ b := by
    have : (1 : ℚ) / 2 ^ 100 * (1 - 1 / 2 ^ 53) ≤ x * (1 - 1 / 2 ^ 53) :=
      mul_le_mul_of_nonneg_right hx1 (by norm_num)
    have h3 : (1 : ℚ) / 2 ^ 101 ≤ 1 / 2 ^ 100 * (1 - 1 / 2 ^ 53) := by norm_num
    linarith
  have hbhi : b ≤ 2 ^ 121 := by
    have : x * (1 + 1 / 2 ^ 53) ≤ 2 ^ 120 * (1 + 1 / 2 ^ 53) :=
      mul_le_mul_of_nonneg_right hx2 (by norm_num)
    have h3 : (2 : ℚ) ^ 120 * (1 + 1 / 2 ^ 53) ≤ 2 ^ 121 := by norm_num
    linarith
  have halo : 1 / 2 ≤ a := by
    have : (1 : ℚ) * (1 - 1 / 2 ^ 53) ≤ (n : ℚ) * (1 - 1 / 2 ^ 53) :=
      mul_le_mul_of_nonneg_right hn1 (by norm_num)
    have h3 : (1 : ℚ) / 2 ≤ 1 * (1 - 1 / 2 ^ 53) := by norm_num
    linarith
  have hahi : a ≤ 2 ^ 65 := by
    have : (n : ℚ) * (1 + 1 / 2 ^ 53) ≤ 2 ^ 64 * (1 + 1 / 2 ^ 53) :=
      mul_le_mul_of_nonneg_right hn2 (by norm_num)
    have h3 : (2 : ℚ) ^ 64 * (1 + 1 / 2 ^ 53) ≤ 2 ^ 65 := by norm_num
    linarith
  have hq1 : 1 / 2 ^ 250 ≤ a / b := by
    have h3 : (1 : ℚ) / 2 / 2 ^ 121 ≤ a / b := div_le_div₀ hApos.le halo hBpos hbhi
    have h4 : (1 : ℚ) / 2 ^ 250 ≤ 1 / 2 / 2 ^ 121 := by norm_num
    linarith
  have hq2 : a / b ≤ 2 ^ 250 := by
    have h3 : a / b ≤ 2 ^ 65 / (1 / 2 ^ 101) :=
      div_le_div₀ (by positivity) hahi (by positivity) hblo
    have h4 : (2 : ℚ) ^ 65 / (1 / 2 ^ 101) ≤ 2 ^ 250 := by norm_num
    linarith
  obtain ⟨hQ, hQerr, _⟩ := toDouble_normal (a / b) (normal_lo _ hq1) (normal_hi _ hq2)
  obtain ⟨hc1, hc2⟩ := bounds_of_abs _ _ hQerr
  refine ⟨roundToDouble (a / b), hQ, ?_⟩
  have hE : 0 < (n : ℚ) / x := div_pos (by linarith) hxpos
  have hup : a / b ≤ (n : ℚ) / x * ((1 + 1 / 2 ^ 53) / (1 - 1 / 2 ^ 53)) := by
    have h3 : a / b ≤ (n : ℚ) * (1 + 1 / 2 ^ 53) / (x * (1 - 1 / 2 ^ 53)) :=
      div_le_div₀ (by positivity) ha2 (by positivity) hb1
    have h4 : (n : ℚ) * (1 + 1 / 2 ^ 53) / (x * (1 - 1 / 2 ^ 53))
        = (n : ℚ) / x * ((1 + 1 / 2 ^ 53) / (1 - 1 / 2 ^ 53)) :=
      mul_div_mul_comm _ _ _ _
    linarith
  have hlow : (n : ℚ) / x * ((1 - 1 / 2 ^ 53) / (1 + 1 / 2 ^ 53)) ≤ a / b := by
    have h3 : (n : ℚ) * (1 - 1 / 2 ^ 53) / (x * (1 + 1 / 2 ^ 53)) ≤ a / b :=
      div_le_div₀ hApos.le ha1 hBpos hb2
    have h4 : (n : ℚ) * (1 - 1 / 2 ^ 53) / (x * (1 + 1 / 2 ^ 53))
        = (n : ℚ) / x * ((1 - 1 / 2 ^ 53) / (1 + 1 / 2 ^ 53)) :=
      mul_div_mul_comm _ _ _ _
    linarith
  rw [abs_le]
  constructor
  · have h5 : (n : ℚ) / x * ((1 - 1 / 2 ^ 53) / (1 + 1 / 2 ^ 53)) * (1 - 1 / 2 ^ 53)
        ≤ a / b * (1 - 1 / 2 ^ 53) := mul_le_mul_of_nonneg_right hlow (by norm_num)
    have h6 : (n : ℚ) / x * (1 - 1 / 2 ^ 51)
        ≤ (n : ℚ) / x * ((1 - 1 / 2 ^ 53) / (1 + 1 / 2 ^ 53)) * (1 - 1 / 2 ^ 53) := by
      rw [mul_assoc]
      exact mul_le_mul_of_nonneg_left (by norm_num) hE.le
    have h7 : (n : ℚ) / x * (1 - 1 / 2 ^ 51) = (n : ℚ) / x - (n : ℚ) / x / 2 ^ 51 := by ring
    linarith
  · have h5 : a / b * (1 + 1 / 2 ^ 53)
        ≤ (n : ℚ) / x * ((1 + 1 / 2 ^ 53) / (1 - 1 / 2 ^ 53)) * (1 + 1 / 2 ^ 53) :=
      mul_le_mul_of_nonneg_right hup (by norm_num)
    have h6 : (n : ℚ) / x * ((1 + 1 / 2 ^ 53) / (1 - 1 / 2 ^ 53)) * (1 + 1 / 2 ^ 53)
        ≤ (n : ℚ) / x * (1 + 1 / 2 ^ 51) := by
      rw [mul_assoc]
      exact mul_le_mul_of_nonneg_left (by norm_num) hE.le
    have h7 : (n : ℚ) / x * (1 + 1 / 2 ^ 51) = (n : ℚ) / x + (n : ℚ) / x / 2 ^ 51 := by ring
    linarith

/-- The rounding of a rational in a normal binade, from the nearest multiple
of the unit in the last place. -/
theorem roundToDouble_eq_of_near (x : ℚ) (k m : ℤ) (hk : -1022 ≤ k) (h1 : (2 : ℚ) ^ k ≤ x)
    (h2 : x < (2 : ℚ) ^ (k + 1)) (hm1 : (m : ℚ) - 1 / 2 < x / 2 ^ (k - 52))
    (hm2 : x / 2 ^ (k - 52) < (m : ℚ) + 1 / 2) :
    roundToDouble x = (m : ℚ) * 2 ^ (k - 52) := by
  unfold roundToDouble
  rw [ulpExp_of_mem x k hk h1 h2, roundHalfEven_eq _ m hm1 hm2]

/-- A non-negative `double` below the overflow threshold is its own
rounding. -/
theorem toDouble_of_eq (x y : ℚ) (h : roundToDouble x = y) (h0 : 0 ≤ y) (h1 : y ≤ 2 ^ 250) :
    toDouble x = .finite y := by
  have hlim : (2 : ℚ) ^ (1023 : ℤ) < DOUBLE_LIMIT := by
    unfold DOUBLE_LIMIT
    rw [(zpow_natCast (2 : ℚ) 1024).symm]
    exact zpow_lt_zpow_right₀ (by norm_num) (by norm_num)
  have hy := normal_hi y h1
  have hpos : (0 : ℚ) < DOUBLE_LIMIT := by unfold DOUBLE_LIMIT; positivity
  unfold toDouble
  rw [h, if_neg (by linarith), if_neg (by linarith)]

/-- Claim C1, counterexample: for one received packet and
`simulationTime = 50` the computed throughput is the `double`
700976274800963 / 2^61, which is not the rational `1 * 1900 * 8 / (50 * 1000000)
= 19 / 62500`. -/
theorem wirelessThroughput_counterexample :
    1 ≤ 65535 * MAX_PACKETS ∧ (0 : ℚ) < 50 ∧
    wirelessThroughput 1 50 = .finite (700976274800963 / 2305843009213693952) ∧
    wirelessThroughput 1 50 ≠ .finite ((1 : ℚ) * 1900 * 8 / (50 * 1000000)) := by
  have hbits : throughputBits 1 1900 = 15200 := by
    norm_num [throughputBits, mulU64, UINT64_MOD]
  have hnum : toDouble ((15200 : ℕ) : ℚ) = .finite 15200 := by
    apply toDouble_of_eq _ _ _ (by norm_num) (by norm_num)
    push_cast
    exact roundToDouble_eq_self 15200 13 (15200 * 2 ^ 39) (by norm_num) (by norm_num)
      (by norm_num) (by norm_num)
  have hden : toDouble (50 * 1000000) = .finite 50000000 := by
    apply toDouble_of_eq _ _ _ (by norm_num) (by norm_num)
    norm_num
    exact roundToDouble_eq_self 50000000 25 (50000000 * 2 ^ 27) (by norm_num) (by norm_num)
      (by norm_num) (by norm_num)
  have hquo : toDouble (15200 / 50000000)
      = .finite (700976274800963 / 2305843009213693952) := by
    apply toDouble_of_eq _ _ _ (by norm_num) (by norm_num)
    rw [roundToDouble_eq_of_near (15200 / 50000000) (-12) 5607810198407704 (by norm_num)
      (by norm_num) (by norm_num) (by norm_num) (by norm_num)]
    norm_num
  have hval : wirelessThroughput 1 50
      = .finite (700976274800963 / 2305843009213693952) := by
    unfold wirelessThroughput computeThroughput payloadsize
    rw [hbits, hnum]
    show Double.div (.finite 15200) (toDouble (50 * 1000000)) = _
    rw [hden]
    simp only [Double.div]
    rw [if_neg (by norm_num)]
    exact hquo
  refine ⟨by norm_num [MAX_PACKETS], by norm_num, hval, ?_⟩
  rw [hval]
  intro h
  injection h with h
  norm_num at h

/-- Claim C1, as amended: for every received-packet count whose product
`received * 1900 * 8` does not wrap in 64 bits, which includes every count the
script can receive (see `reachable_count_no_wrap`), and every `simulationTime`
between 2^-100 and 2^100, the throughput computed with `payloadsize = 1900` is
a finite `double` within relative error 2^-51 of the exact rational
`received * 1900 * 8 / (simulationTime * 1000000)`; in particular with
`simulationTime = 50`. -/
theorem wirelessThroughput_rounded (received : Nat) (simulationTime : ℚ)
    (hr : received * 1900 * 8 < UINT64_MOD)
    (hT1 : 1 / 2 ^ 100 ≤ simulationTime) (hT2 : simulationTime ≤ 2 ^ 100) :
    0 < simulationTime ∧
    (∃ q, wirelessThroughput received simulationTime = .finite q ∧
      |q - (received : ℚ) * 1900 * 8 / (simulationTime * 1000000)|
        ≤ (received : ℚ) * 1900 * 8 / (simulationTime * 1000000) / 2 ^ 51) ∧
    (∃ q, wirelessThroughput received 50 = .finite q ∧
      |q - (received : ℚ) * 1900 * 8 / (50 * 1000000)|
        ≤ (received : ℚ) * 1900 * 8 / (50 * 1000000) / 2 ^ 51) := by
  have hbits := throughputBits_of_lt received 1900 hr
  have hcast : ((received * 1900 * 8 : ℕ) : ℚ) = (received : ℚ) * 1900 * 8 := by push_cast; ring
  refine ⟨lt_of_lt_of_le (by positivity) hT1, ?_, ?_⟩
  · have := throughput_error (received * 1900 * 8) simulationTime hr hT1 hT2
    rw [hcast] at this
    unfold wirelessThroughput computeThroughput payloadsize
    rw [hbits, hcast]
    exact this
  · have := throughput_error (received * 1900 * 8) 50 hr (by norm_num) (by norm_num)
    rw [hcast] at this
    unfold wirelessThroughput computeThroughput payloadsize
    rw [hbits, hcast]
    exact this

/-- Every count the clients of the script can deliver, at most `MAX_PACKETS`
from each of at most 65535 clients, is below the wrap-around of the numerator,
also when doubled. -/
theorem reachable_count_no_wrap (received : Nat) (h : received ≤ 65535 * MAX_PACKETS) :
    2 * received * 1900 * 8 < UINT64_MOD ∧ received * 1900 * 8 < UINT64_MOD := by
  simp only [MAX_PACKETS, UINT64_MOD] at *
  norm_num at *
  omega

/-- Witness of `wirelessThroughput_rounded` at 12345 received packets and a
simulation time of 50 seconds. -/
theorem wirelessThroughput_rounded_witness :
    (12345 * 1900 * 8 < UINT64_MOD ∧ (1 : ℚ) / 2 ^ 100 ≤ 50 ∧ (50 : ℚ) ≤ 2 ^ 100) ∧
    ∃ q, wirelessThroughput 12345 50 = .finite q ∧
      |q - ((12345 : ℕ) : ℚ) * 1900 * 8 / (50 * 1000000)|
        ≤ ((12345 : ℕ) : ℚ) * 1900 * 8 / (50 * 1000000) / 2 ^ 51 :=
  ⟨⟨by norm_num [UINT64_MOD], by norm_num, by norm_num⟩,
   (wirelessThroughput_rounded 12345 50 (by norm_num [UINT64_MOD]) (by norm_num)
      (by norm_num)).2.1⟩

/-- For `nWifi = 0` the value of `nWifi - 1` is 2^32 - 1. -/
theorem subOneU32_zero : subOneU32 0 = 4294967295 := by
  norm_num [subOneU32, UINT32_MOD]

/-- For a positive `uint32_t` value `nWifi - 1` does not wrap. -/
theorem subOneU32_pos (n : Nat) (h1 : 1 ≤ n) (h2 : n < UINT32_MOD) :
    subOneU32 n = n - 1 := by
  simp only [subOneU32, UINT32_MOD] at *
  norm_num at *
  omega

/-- Below 65535 the increment of a `uint16_t` does not wrap. -/
theorem incU16_of_lt (i : Nat) (h : i + 1 < 65536) : incU16 i = i + 1 := by
  simp only [incU16, UINT16_MOD]
  norm_num
  omega

/-- A `uint16_t` counter stays below 65536. -/
theorem incU16_lt (i : Nat) : incU16 i < 65536 := by
  simp only [incU16, UINT16_MOD]
  norm_num
  omega

/-- One evaluation of the loop condition of line 186. -/
theorem clientLoop_succ (nWifi fuel i : Nat) :
    clientLoop nWifi (fuel + 1) i =
      if i ≤ subOneU32 nWifi then
        (i :: (clientLoop nWifi fuel (incU16 i)).1, (clientLoop nWifi fuel (incU16 i)).2)
      else ([], true) := by
  rfl

/-- Inside the range `1 ≤ nWifi ≤ 65535` the loop started at `i ≤ nWifi` is
left as soon as the budget exceeds `nWifi - i` evaluations of the condition. -/
theorem clientLoop_run (nWifi : Nat) (h1 : 1 ≤ nWifi) (h2 : nWifi ≤ 65535) :
    ∀ k i fuel, i + k = nWifi → k < fuel →
      clientLoop nWifi fuel i = (List.range' i k, true) := by
  have hsub : subOneU32 nWifi = nWifi - 1 :=
    subOneU32_pos nWifi h1 (by simp only [UINT32_MOD]; norm_num; omega)
  intro k
  induction k with
  | zero =>
    intro i fuel hi hf
    obtain ⟨f, rfl⟩ : ∃ f, fuel = f + 1 := ⟨fuel - 1, by omega⟩
    rw [clientLoop_succ, hsub, if_neg (by omega)]
    rfl
  | succ k ih =>
    intro i fuel hi hf
    obtain ⟨f, rfl⟩ : ∃ f, fuel = f + 1 := ⟨fuel - 1, by omega⟩
    rw [clientLoop_succ, hsub, if_pos (by omega), incU16_of_lt i (by omega),
      ih (i + 1) f (by omega) (by omega)]
    rfl

/-- Inside the range `1 ≤ nWifi ≤ 65535` any run that leaves the loop has
visited exactly the indices from the start value up to `nWifi - 1`. -/
theorem clientLoop_exit (nWifi : Nat) (h1 : 1 ≤ nWifi) (h2 : nWifi ≤ 65535) :
    ∀ fuel i visited, i ≤ nWifi → clientLoop nWifi fuel i = (visited, true) →
      visited = List.range' i (nWifi - i) := by
  have hsub : subOneU32 nWifi = nWifi - 1 :=
    subOneU32_pos nWifi h1 (by simp only [UINT32_MOD]; norm_num; omega)
  intro fuel
  induction fuel with
  | zero =>
    intro i visited _ h
    simp [clientLoop] at h
  | succ fuel ih =>
    intro i visited hi h
    rw [clientLoop_succ, hsub] at h
    by_cases hc : i ≤ nWifi - 1
    · rw [if_pos hc, incU16_of_lt i (by omega)] at h
      have h' := Prod.mk.inj h
      have hrec := ih (i + 1) (clientLoop nWifi fuel (i + 1)).1 (by omega)
        (by rw [← h'.2])
      rw [← h'.1, hrec]
      have : nWifi - i = (nWifi - (i + 1)) + 1 := by omega
      rw [this]
      rfl
    · rw [if_neg hc] at h
      have h' := Prod.mk.inj h
      have : nWifi - i = 0 := by omega
      rw [this, ← h'.1]
      rfl

/-- Outside the range the loop condition holds for every 16-bit counter, so
no amount of fuel leaves the loop. -/
theorem clientLoop_stuck (nWifi : Nat) (h : 65535 ≤ subOneU32 nWifi) :
    ∀ fuel i, i < 65536 → (clientLoop nWifi fuel i).2 = false := by
  intro fuel
  induction fuel with
  | zero => intro i _; rfl
  | succ fuel ih =>
    intro i hi
    rw [clientLoop_succ, if_pos (by omega)]
    exact ih (incU16 i) (incU16_lt i)

/-- The clients installed by the loop body are those of the visited
indices. -/
theorem installedClients_flatMap (p : Params) (visited : List Nat) :
    installedClients (visited.flatMap (clientActions p)) = visited := by
  induction visited with
  | nil => rfl
  | cons i rest ih =>
    unfold installedClients at ih ⊢
    rw [List.flatMap_cons, List.filterMap_append, ih]
    rfl

/-- Claim C10: for `uint32_t nWifi`, the loop
`for (uint16_t i=0; i<=nWifi-1; i++)` terminates if and only if
`1 ≤ nWifi ≤ 65535`; in that range `nWifi + 1` evaluations of the condition
leave it, and whenever it is left its body has run exactly `nWifi` times, for
`i = 0, 1, ..., nWifi - 1` in that order: the calls of the loop are the
install, start and stop calls of lines 188-190 for each of these indices, one
client is installed on each station index `0, ..., nWifi - 1`, and no index
`≥ nWifi` is used.  For `nWifi = 0` the first pass already uses the index 0,
which is no station index. -/
theorem clientLoop_terminates_iff (p : Params) (h : p.nWifi < UINT32_MOD) :
    (clientLoopTerminates p.nWifi ↔ 1 ≤ p.nWifi ∧ p.nWifi ≤ 65535) ∧
    (1 ≤ p.nWifi ∧ p.nWifi ≤ 65535 →
      clientLoop p.nWifi (p.nWifi + 1) 0 = (List.range p.nWifi, true)) ∧
    (∀ fuel visited, clientLoop p.nWifi fuel 0 = (visited, true) →
      visited = List.range p.nWifi ∧ visited.length = p.nWifi ∧
      (∀ i ∈ visited, i < p.nWifi) ∧
      clientLoopCalls fuel p = (List.range p.nWifi).flatMap (fun i =>
        [ Action.installApp .client .wifiStaNode i,
          Action.appStart .client .wifiStaNode i 1,
          Action.appStop .client .wifiStaNode i (stopTime p) ]) ∧
      installedClients (clientLoopCalls fuel p) = List.range p.nWifi) ∧
    (p.nWifi = 0 → ∀ fuel, (clientLoop p.nWifi (fuel + 1) 0).1.head? = some 0) := by
  obtain ⟨nWifi, cwmin, cwmax, T⟩ := p
  simp only at h ⊢
  have hstuck : ¬ (1 ≤ nWifi ∧ nWifi ≤ 65535) →
      ∀ fuel, (clientLoop nWifi fuel 0).2 = false := by
    intro hr fuel
    apply clientLoop_stuck nWifi _ fuel 0 (by norm_num)
    by_cases h0 : nWifi = 0
    · subst h0; rw [subOneU32_zero]; norm_num
    · rw [subOneU32_pos nWifi (by omega) h]; omega
  have hrun : 1 ≤ nWifi ∧ nWifi ≤ 65535 →
      clientLoop nWifi (nWifi + 1) 0 = (List.range nWifi, true) := by
    intro hr
    rw [clientLoop_run nWifi hr.1 hr.2 nWifi 0 (nWifi + 1) (by omega) (by omega),
      List.range_eq_range']
  refine ⟨⟨?_, ?_⟩, hrun, ?_, ?_⟩
  · rintro ⟨fuel, hf⟩
    by_contra hr
    rw [hstuck hr fuel] at hf
    exact Bool.false_ne_true hf
  · intro hr
    exact ⟨nWifi + 1, by rw [hrun hr]⟩
  · intro fuel visited hv
    have hr : 1 ≤ nWifi ∧ nWifi ≤ 65535 := by
      by_contra hr
      have := hstuck hr fuel
      rw [hv] at this
      exact Bool.false_ne_true this.symm
    have hvis := clientLoop_exit nWifi hr.1 hr.2 fuel 0 visited (by omega) hv
    rw [Nat.sub_zero, ← List.range_eq_range'] at hvis
    subst hvis
    have hcalls : clientLoopCalls fuel ⟨nWifi, cwmin, cwmax, T⟩
        = (List.range nWifi).flatMap (clientActions ⟨nWifi, cwmin, cwmax, T⟩) := by
      unfold clientLoopCalls
      rw [hv]
    refine ⟨rfl, List.length_range nWifi, fun i hi => List.mem_range.mp hi, ?_, ?_⟩
    · rw [hcalls]
      rfl
    · rw [hcalls, installedClients_flatMap]
  · intro h0 fuel
    subst h0
    rw [clientLoop_succ, subOneU32_zero, if_pos (by norm_num)]
    rfl

/-- Witness of `clientLoop_terminates_iff` at the initial values, with
`nWifi = 5`. -/
theorem clientLoop_terminates_iff_witness :
    defaultParams.nWifi < UINT32_MOD ∧
    (clientLoopTerminates 5 ↔ 1 ≤ 5 ∧ 5 ≤ 65535) ∧
    clientLoop 5 6 0 = ([0, 1, 2, 3, 4], true) ∧
    installedClients (clientLoopCalls 6 defaultParams) = [0, 1, 2, 3, 4] :=
  ⟨by norm_num [UINT32_MOD, defaultParams],
   (clientLoop_terminates_iff defaultParams (by norm_num [UINT32_MOD, defaultParams])).1,
   (clientLoop_terminates_iff defaultParams (by norm_num [UINT32_MOD, defaultParams])).2.1
     (by norm_num [defaultParams]),
   ((clientLoop_terminates_iff defaultParams
      (by norm_num [UINT32_MOD, defaultParams])).2.2.1 6 [0, 1, 2, 3, 4]
      ((clientLoop_terminates_iff defaultParams
        (by norm_num [UINT32_MOD, defaultParams])).2.1 (by norm_num [defaultParams]))).2.2.2.2⟩

/-! ## Properties of address allocation -/

/-- A /24 offers 254 host ids. -/
theorem hostCapacity_mask24 : hostCapacity mask24 = 254 := by
  norm_num [hostCapacity, mask24, ipv4, UINT32_MOD]

/-- While host ids remain, `assign` hands out consecutive addresses. -/
theorem assign_consecutive (network mask : Nat) :
    ∀ count first, first + count ≤ hostCapacity mask + 1 →
      (Ipv4AddressHelper.mk network mask first).assign count
        = .ok (List.range' (network + first) count, ⟨network, mask, first + count⟩) := by
  intro count
  induction count with
  | zero => intro first _; rfl
  | succ count ih =>
    intro first h
    have hle : first ≤ hostCapacity mask := by omega
    have hrec := ih (first + 1) (by omega)
    simp only [Ipv4AddressHelper.assign, Ipv4AddressHelper.newAddress, if_pos hle, hrec]
    simp only [List.range', Nat.add_assoc, Nat.add_comm 1 count]

/-- Host ids of consecutive addresses are consecutive. -/
theorem range'_map_hostId (network : Nat) :
    ∀ count first, (List.range' (network + first) count).map (hostId network)
      = List.range' first count := by
  intro count
  induction count with
  | zero => intro first; rfl
  | succ count ih =>
    intro first
    simp only [List.range', List.map_cons, hostId, Nat.add_sub_cancel_left]
    rw [Nat.add_assoc, ih (first + 1)]

/-- With at most 253 stations the calls of lines 159-167 succeed: stations
receive the addresses after the base in order and the access point the next
one. -/
theorem addressActions_of_le (nWifi : Nat) (h : nWifi + 1 ≤ 254) :
    addressActions nWifi =
      ([.setBase wifiNetwork mask24,
        .assignAddresses .wifiStaNode (List.range' (wifiNetwork + 1) nWifi),
        .assignAddresses .wifiApNode [wifiNetwork + (nWifi + 1)]], none) := by
  have h1 := assign_consecutive wifiNetwork mask24 nWifi 1
    (by rw [hostCapacity_mask24]; omega)
  have h2 := assign_consecutive wifiNetwork mask24 1 (1 + nWifi)
    (by rw [hostCapacity_mask24]; omega)
  simp only [addressActions, Ipv4AddressHelper.setBase, h1, h2]
  simp only [List.range', Nat.add_comm 1 nWifi]

/-- The calls of first.cc. -/
theorem firstMain_eq :
    firstMain = .completed
      [ .createNodes .nodes 2, .installDevices .nodes 2, .installStack .nodes,
        .setBase p2pNetwork mask24,
        .assignAddresses .nodes [p2pNetwork + 1, p2pNetwork + 2],
        .installApp .server .nodes 1,
        .appStart .server .nodes 1 1,
        .appStop .server .nodes 1 10,
        .installApp .client .nodes 0,
        .appStart .client .nodes 0 2,
        .appStop .client .nodes 0 10,
        .simulatorRun,
        .simulatorDestroy ] := by
  have h := assign_consecutive p2pNetwork mask24 2 1 (by rw [hostCapacity_mask24]; omega)
  unfold firstMain
  simp only [Ipv4AddressHelper.setBase]
  generalize p2pNetwork = w at h ⊢
  rw [h]
  rfl

/-- Claim C2: from a /24 base `a.b.c.0` the allocator gives `n ≤ 254`
interfaces the addresses `base + 1, ..., base + n`, that is the host ids
`1, 2, ..., n` in installation order, pairwise distinct; the list is fixed by
the base and `n` alone, so assigning the same inputs again gives the same
mapping.  In the wireless scenario (base
192.168.1.0, stations before the access point, `nWifi + 1 ≤ 254` interfaces)
station `i` gets host id `i + 1` and the access point `nWifi + 1`; in the
point-to-point scenario (base 10.1.1.0) node 0 gets host id 1 and node 1 host
id 2. -/
theorem address_allocation (a b c n nWifi : Nat) (hn : n ≤ 254) (hw : nWifi + 1 ≤ 254) :
    (∃ addresses helper,
      (Ipv4AddressHelper.setBase (ipv4 a b c 0) mask24).assign n = .ok (addresses, helper) ∧
      addresses = List.range' (ipv4 a b c 0 + 1) n ∧
      addresses.map (hostId (ipv4 a b c 0)) = List.range' 1 n ∧
      addresses.length = n ∧
      addresses.Nodup) ∧
    (∃ sta ap,
      addressActions nWifi =
        ([.setBase wifiNetwork mask24, .assignAddresses .wifiStaNode sta,
          .assignAddresses .wifiApNode [ap]], none) ∧
      sta.length = nWifi ∧
      (∀ i, i < nWifi → (sta[i]?).map (hostId wifiNetwork) = some (i + 1)) ∧
      hostId wifiNetwork ap = nWifi + 1) ∧
    (∃ node0 node1,
      Action.assignAddresses .nodes [node0, node1] ∈ firstMain.calls ∧
      hostId p2pNetwork node0 = 1 ∧ hostId p2pNetwork node1 = 2) := by
  refine ⟨?_, ?_, ?_⟩
  · refine ⟨List.range' (ipv4 a b c 0 + 1) n, ⟨ipv4 a b c 0, mask24, 1 + n⟩, ?_, rfl, ?_, ?_, ?_⟩
    · exact assign_consecutive (ipv4 a b c 0) mask24 n 1 (by rw [hostCapacity_mask24]; omega)
    · exact range'_map_hostId (ipv4 a b c 0) n 1
    · exact List.length_range' _ _ _
    · exact List.nodup_range' _ _
  · refine ⟨List.range' (wifiNetwork + 1) nWifi, wifiNetwork + (nWifi + 1),
      addressActions_of_le nWifi hw, List.length_range' _ _ _, ?_, ?_⟩
    · intro i hi
      rw [List.getElem?_range' _ _ hi]
      generalize wifiNetwork = w
      have : w + 1 + 1 * i - w = i + 1 := by omega
      simp only [Option.map_some', hostId, this]
    · generalize wifiNetwork = w
      simp only [hostId]
      omega
  · refine ⟨p2pNetwork + 1, p2pNetwork + 2, ?_, ?_, ?_⟩
    · rw [firstMain_eq]
      simp [Outcome.calls]
    · generalize p2pNetwork = w
      simp only [hostId]
      omega
    · generalize p2pNetwork = w
      simp only [hostId]
      omega

/-- Witness of `address_allocation` at base 10.1.1.0 with two interfaces and
at five stations. -/
theorem address_allocation_witness :
    (2 ≤ 254 ∧ 5 + 1 ≤ 254) ∧
    (∃ addresses helper,
      (Ipv4AddressHelper.setBase (ipv4 10 1 1 0) mask24).assign 2 = .ok (addresses, helper) ∧
      addresses = List.range' (ipv4 10 1 1 0 + 1) 2 ∧
      addresses.map (hostId (ipv4 10 1 1 0)) = List.range' 1 2 ∧
      addresses.length = 2 ∧
      addresses.Nodup) :=
  ⟨⟨by decide, by decide⟩, (address_allocation 10 1 1 2 5 (by decide) (by decide)).1⟩

/-! ## Properties of station placement -/

/-- The positions handed out by lines 151-152: the origin to the access
point, and the `i`-th circle position to station `i`. -/
theorem wirelessPlacement_eq {R : Type} [Field R] (cos sin : R → R) (radius pi : R)
    (nWifi : Nat) :
    wirelessPlacement cos sin radius pi nWifi
      = ([⟨0, 0, 0⟩], (List.range nWifi).map (stationVector cos sin radius pi nWifi)) := by
  have hlen : (positionList cos sin radius pi nWifi).length = nWifi + 1 := by
    simp [positionList]
  unfold wirelessPlacement takePositions
  simp only [hlen]
  refine Prod.ext ?_ ?_
  · have hr : List.range 1 = [0] := rfl
    simp [positionList, hr]
  · show List.filterMap _ (List.range nWifi) = _
    rcases Nat.eq_zero_or_pos nWifi with h0 | hpos
    · subst h0; rfl
    · have h1 : (0 + 1) % (nWifi + 1) = 1 := Nat.mod_eq_of_lt (by omega)
      rw [h1, ← List.filterMap_eq_map]
      apply List.filterMap_congr
      intro k hk
      have hk' : k < nWifi := List.mem_range.mp hk
      have h2 : (1 + k) % (nWifi + 1) = k + 1 := by
        rw [Nat.mod_eq_of_lt (by omega)]; omega
      rw [h2]
      simp [positionList, hk']

/-- Station `i` receives the `i`-th circle position. -/
theorem stationPosition_eq {R : Type} [Field R] (cos sin : R → R) (radius pi : R)
    (nWifi i : Nat) (hi : i < nWifi) :
    stationPosition cos sin radius pi nWifi i
      = some (stationVector cos sin radius pi nWifi i) := by
  unfold stationPosition
  rw [wirelessPlacement_eq]
  simp [hi]

/-- The access point receives the origin. -/
theorem apPosition_eq {R : Type} [Field R] (cos sin : R → R) (radius pi : R)
    (nWifi : Nat) :
    apPosition cos sin radius pi nWifi = some ⟨0, 0, 0⟩ := by
  unfold apPosition
  rw [wirelessPlacement_eq]
  rfl

/-- Over the reals every circle position lies at distance `radius` from the
origin, for every non-negative radius and every value of the constant used
for the circle constant. -/
theorem stationVector_dist (radius pi : ℝ) (hr : 0 ≤ radius) (nWifi i : Nat) :
    Real.sqrt (stationVector Real.cos Real.sin radius pi nWifi i).normSq = radius := by
  have h : (stationVector Real.cos Real.sin radius pi nWifi i).normSq = radius ^ 2 := by
    simp only [Vector3.normSq, stationVector]
    have := Real.cos_sq_add_sin_sq (theta pi nWifi i)
    nlinarith [this]
  rw [h, Real.sqrt_sq hr]

/-- The variable `rho` holds the single-precision number nearest to 0.01: a
24-bit significand times 2^-30, within half a unit in the last place of
0.01. -/
theorem rho_nearest_float :
    rho = 10737418 / 2 ^ 30 ∧ 2 ^ 23 ≤ 10737418 ∧ 10737418 < 2 ^ 24 ∧
    |(1 / 100 : ℚ) * 2 ^ 30 - 10737418| < 1 / 2 := by
  refine ⟨by norm_num [rho], by norm_num, by norm_num, ?_⟩
  rw [abs_lt]
  constructor <;> norm_num

/-- Claim C3, as amended: for every `nWifi ≥ 1` and every station index
`i < nWifi`, over the real numbers the access point is placed at the origin
and station `i` at `(rho cos theta_i, rho sin theta_i, 0)`, whose Euclidean
distance to the origin equals `rho`, where `rho` is the single-precision value
of 0.01, that is 5368709 / 536870912, within 2^-31 of 0.01. -/
theorem station_distance (nWifi i : Nat) (_h1 : 1 ≤ nWifi) (hi : i < nWifi) :
    apPosition Real.cos Real.sin (rho : ℝ) (PI : ℝ) nWifi = some ⟨0, 0, 0⟩ ∧
    ∃ v, stationPosition Real.cos Real.sin (rho : ℝ) (PI : ℝ) nWifi i = some v ∧
      v = ⟨(rho : ℝ) * Real.cos ((i : ℝ) * 2 * (PI : ℝ) / (nWifi : ℝ)),
           (rho : ℝ) * Real.sin ((i : ℝ) * 2 * (PI : ℝ) / (nWifi : ℝ)), 0⟩ ∧
      Real.sqrt (v.x ^ 2 + v.y ^ 2 + v.z ^ 2) = (rho : ℝ) ∧
      (rho : ℝ) = 5368709 / 536870912 ∧
      |(rho : ℝ) - 0.01| < 1 / 2 ^ 31 := by
  have hrho : (rho : ℝ) = 5368709 / 536870912 := by norm_num [rho]
  refine ⟨apPosition_eq _ _ _ _ _, _, stationPosition_eq _ _ _ _ _ _ hi, rfl, ?_, hrho, ?_⟩
  · exact stationVector_dist (rho : ℝ) (PI : ℝ) (by rw [hrho]; norm_num) nWifi i
  · rw [hrho, abs_lt]
    constructor <;> norm_num

/-- Witness of `station_distance` at five stations and station 2. -/
theorem station_distance_witness :
    (1 ≤ 5 ∧ 2 < 5) ∧
    apPosition Real.cos Real.sin (rho : ℝ) (PI : ℝ) 5 = some ⟨0, 0, 0⟩ :=
  ⟨⟨by decide, by decide⟩, (station_distance 5 2 (by decide) (by decide)).1⟩

/-- Claim C3, counterexample: with one station, the distance of station 0 to
the origin is 5368709 / 536870912, the single-precision value stored in `rho`,
which is not 0.01. -/
theorem station_distance_counterexample :
    (stationPosition Real.cos Real.sin (rho : ℝ) (PI : ℝ) 1 0).map
        (fun v => Real.sqrt (v.x ^ 2 + v.y ^ 2 + v.z ^ 2))
      = some (5368709 / 536870912) ∧
    (5368709 / 536870912 : ℝ) ≠ 0.01 := by
  have hrho : (rho : ℝ) = 5368709 / 536870912 := by norm_num [rho]
  refine ⟨?_, by norm_num⟩
  rw [stationPosition_eq _ _ _ _ _ _ (by decide), Option.map_some', ← hrho]
  congr 1
  exact stationVector_dist (rho : ℝ) (PI : ℝ) (by rw [hrho]; norm_num) 1 0

/-- The constant `PI` of the script is smaller than the circle constant. -/
theorem PI_lt_pi : (PI : ℝ) < Real.pi := by
  have h := Real.pi_gt_d20
  have : (PI : ℝ) = 3.14159265 := by norm_num [PI]
  rw [this]
  linarith

/-- The constant `PI` of the script is within 4e-9 of the circle constant. -/
theorem pi_sub_PI_lt : Real.pi - (PI : ℝ) < 4 / 1000000000 := by
  have h := Real.pi_lt_d20
  have : (PI : ℝ) = 3.14159265 := by norm_num [PI]
  rw [this]
  norm_num at h ⊢
  linarith

/-- Claim C8, counterexample: with two stations, station 1 is placed at the
angle `PI = 3.14159265`, which is not `1 * 2π / 2`, and the spacing between
stations 0 and 1 is not `2π / 2`. -/
theorem spacing_counterexample :
    theta (PI : ℝ) 2 1 ≠ (1 : ℝ) * 2 * Real.pi / 2 ∧
    theta (PI : ℝ) 2 (0 + 1) - theta (PI : ℝ) 2 0 ≠ 2 * Real.pi / 2 := by
  have h := PI_lt_pi
  constructor
  · simp only [theta]
    intro hc
    norm_num at hc
    linarith
  · simp only [theta]
    intro hc
    norm_num at hc
    linarith

/-- Claim C8, as amended: for every `nWifi ≥ 1`, station `i` is placed at the
angle `theta_i = i * 2 * PI / nWifi` with `PI = 3.14159265` the constant of
the script; the spacing between consecutive stations is `2 * PI / nWifi`,
which is below `2π / nWifi` by less than `8e-9 / nWifi`; the wrap-around
spacing from station `nWifi - 1` back to station 0 on the real circle is
`2π / nWifi + 2 (π - PI) (nWifi - 1) / nWifi`, which exceeds `2π / nWifi` by
less than `8e-9`. -/
theorem station_angles (nWifi i : Nat) (h1 : 1 ≤ nWifi) (hi : i < nWifi) :
    stationPosition Real.cos Real.sin (rho : ℝ) (PI : ℝ) nWifi i
      = some ⟨(rho : ℝ) * Real.cos (theta (PI : ℝ) nWifi i),
              (rho : ℝ) * Real.sin (theta (PI : ℝ) nWifi i), 0⟩ ∧
    theta (PI : ℝ) nWifi i = (i : ℝ) * 2 * 3.14159265 / (nWifi : ℝ) ∧
    (i + 1 < nWifi →
      theta (PI : ℝ) nWifi (i + 1) - theta (PI : ℝ) nWifi i = 2 * 3.14159265 / (nWifi : ℝ)) ∧
    (0 < 2 * Real.pi / (nWifi : ℝ) - 2 * 3.14159265 / (nWifi : ℝ) ∧
      2 * Real.pi / (nWifi : ℝ) - 2 * 3.14159265 / (nWifi : ℝ)
        < 8 / 1000000000 / (nWifi : ℝ)) ∧
    ((theta (PI : ℝ) nWifi 0 + 2 * Real.pi) - theta (PI : ℝ) nWifi (nWifi - 1)
        = 2 * Real.pi / (nWifi : ℝ)
          + 2 * (Real.pi - 3.14159265) * ((nWifi : ℝ) - 1) / (nWifi : ℝ)) ∧
    (0 ≤ 2 * (Real.pi - 3.14159265) * ((nWifi : ℝ) - 1) / (nWifi : ℝ) ∧
      2 * (Real.pi - 3.14159265) * ((nWifi : ℝ) - 1) / (nWifi : ℝ) < 8 / 1000000000) := by
  have hPI : (PI : ℝ) = 3.14159265 := by norm_num [PI]
  have hn : (0 : ℝ) < (nWifi : ℝ) := by exact_mod_cast h1
  have hn1 : (1 : ℝ) ≤ (nWifi : ℝ) := by exact_mod_cast h1
  have hne : (nWifi : ℝ) ≠ 0 := ne_of_gt hn
  have hlo : (0 : ℝ) < Real.pi - 3.14159265 := by
    have := PI_lt_pi; rw [hPI] at this; linarith
  have hhi : Real.pi - 3.14159265 < 4 / 1000000000 := by
    have := pi_sub_PI_lt; rw [hPI] at this; exact this
  refine ⟨stationPosition_eq _ _ _ _ _ _ hi, ?_, ?_, ⟨?_, ?_⟩, ?_, ⟨?_, ?_⟩⟩
  · simp only [theta, hPI]
  · intro _
    simp only [theta, hPI]
    push_cast
    field_simp
    ring
  · rw [← sub_div]
    apply div_pos _ hn
    linarith
  · rw [← sub_div]
    apply div_lt_div_of_pos_right _ hn
    linarith
  · simp only [theta, hPI]
    rw [Nat.cast_sub h1]
    push_cast
    field_simp
    ring
  · apply div_nonneg _ hn.le
    apply mul_nonneg (by linarith) (by linarith)
  · rw [div_lt_iff₀ hn]
    nlinarith

/-- Witness of `station_angles` at five stations and station 1. -/
theorem station_angles_witness :
    (1 ≤ 5 ∧ 1 < 5) ∧
    theta (PI : ℝ) 5 1 = ((1 : ℕ) : ℝ) * 2 * 3.14159265 / ((5 : ℕ) : ℝ) ∧
    theta (PI : ℝ) 5 (1 + 1) - theta (PI : ℝ) 5 1 = 2 * 3.14159265 / ((5 : ℕ) : ℝ) :=
  ⟨⟨by decide, by decide⟩, (station_angles 5 1 (by decide) (by decide)).2.1,
   (station_angles 5 1 (by decide) (by decide)).2.2.1 (by decide)⟩

/-! ## Properties of the call sequences -/

/-- The allocator raises no error other than `addressSpaceExhausted`. -/
theorem assign_error (count : Nat) :
    ∀ (h : Ipv4AddressHelper) (e : ScenarioError), h.assign count = .error e →
      e = .addressSpaceExhausted := by
  induction count with
  | zero => intro h e he; simp [Ipv4AddressHelper.assign] at he
  | succ count ih =>
    intro h e he
    by_cases hc : h.address ≤ hostCapacity h.mask
    · simp only [Ipv4AddressHelper.assign, Ipv4AddressHelper.newAddress, if_pos hc] at he
      cases hrec : (Ipv4AddressHelper.mk h.network h.mask (h.address + 1)).assign count with
      | error e' =>
        rw [hrec] at he
        injection he with he
        rw [← he]
        exact ih _ _ hrec
      | ok r =>
        rw [hrec] at he
        simp at he
    · simp only [Ipv4AddressHelper.assign, Ipv4AddressHelper.newAddress, if_neg hc] at he
      injection he with he
      exact he.symm

/-- The calls of lines 159-167 are `SetBase` and `Assign` calls, and the only
error that stops them is `addressSpaceExhausted`. -/
theorem addressActions_spec (nWifi : Nat) :
    (∀ a ∈ (addressActions nWifi).1,
      (∃ network mask, a = .setBase network mask) ∨
      (∃ c addresses, a = .assignAddresses c addresses)) ∧
    (∀ e, (addressActions nWifi).2 = some e → e = .addressSpaceExhausted) := by
  unfold addressActions
  cases h1 : (Ipv4AddressHelper.setBase wifiNetwork mask24).assign nWifi with
  | error e =>
    refine ⟨?_, ?_⟩
    · intro a ha
      simp only [List.mem_singleton] at ha
      exact Or.inl ⟨_, _, ha⟩
    · intro e' he'
      simp only [Option.some.injEq] at he'
      rw [← he']
      exact assign_error _ _ _ h1
  | ok r =>
    obtain ⟨sta, helper⟩ := r
    cases h2 : helper.assign 1 with
    | error e =>
      simp only [h2]
      refine ⟨?_, ?_⟩
      · intro a ha
        simp only [List.mem_cons, List.mem_singleton, List.not_mem_nil, or_false] at ha
        rcases ha with ha | ha
        · exact Or.inl ⟨_, _, ha⟩
        · exact Or.inr ⟨_, _, ha⟩
      · intro e' he'
        simp only [Option.some.injEq] at he'
        rw [← he']
        exact assign_error _ _ _ h2
    | ok r2 =>
      obtain ⟨ap, helper2⟩ := r2
      simp only [h2]
      refine ⟨?_, ?_⟩
      · intro a ha
        simp only [List.mem_cons, List.mem_singleton, List.not_mem_nil, or_false] at ha
        rcases ha with ha | ha | ha
        · exact Or.inl ⟨_, _, ha⟩
        · exact Or.inr ⟨_, _, ha⟩
        · exact Or.inr ⟨_, _, ha⟩
      · intro e' he'
        simp at he'

/-- Every call of a run of testBAS.cc belongs to one of the blocks of the
script, and the run starts with the `Config::SetDefault` block followed by the
topology block. -/
theorem wirelessMain_calls (fuel : Nat) (p : Params) :
    ∃ rest, (wirelessMain fuel p).calls = defaultActions p ++ (topologyActions p ++ rest) ∧
      ∀ a ∈ rest, a ∈ (addressActions p.nWifi).1 ∨ a ∈ serverActions p ∨
        (∃ i, a ∈ clientActions p i) ∨ a ∈ finalActions p := by
  unfold wirelessMain
  rcases haddr : addressActions p.nWifi with ⟨addressing, err⟩
  cases err with
  | some e =>
    refine ⟨addressing, ?_, ?_⟩
    · simp [Outcome.calls, List.append_assoc]
    · intro a ha
      exact Or.inl ha
  | none =>
    rcases hloop : clientLoop p.nWifi fuel 0 with ⟨visited, left⟩
    cases left with
    | false =>
      refine ⟨addressing ++ serverActions p ++ visited.flatMap (clientActions p), ?_, ?_⟩
      · simp [Outcome.calls, List.append_assoc]
      · intro a ha
        simp only [List.mem_append, List.mem_flatMap] at ha
        rcases ha with (ha | ha) | ⟨i, _, ha⟩
        · exact Or.inl ha
        · exact Or.inr (Or.inl ha)
        · exact Or.inr (Or.inr (Or.inl ⟨i, ha⟩))
    | true =>
      refine ⟨addressing ++ serverActions p ++ visited.flatMap (clientActions p)
        ++ finalActions p, ?_, ?_⟩
      · simp [Outcome.calls, List.append_assoc]
      · intro a ha
        simp only [List.mem_append, List.mem_flatMap] at ha
        rcases ha with ((ha | ha) | ⟨i, _, ha⟩) | ha
        · exact Or.inl ha
        · exact Or.inr (Or.inl ha)
        · exact Or.inr (Or.inr (Or.inl ⟨i, ha⟩))
        · exact Or.inr (Or.inr (Or.inr ha))

/-- With at least one and at most 253 stations and a sufficient loop budget
the script runs to the end, and these are its calls. -/
theorem wirelessMain_completed (fuel : Nat) (p : Params)
    (h1 : 1 ≤ p.nWifi) (h2 : p.nWifi ≤ 253) (hf : p.nWifi < fuel) :
    wirelessMain fuel p = .completed
      (defaultActions p ++ topologyActions p ++
        [.setBase wifiNetwork mask24,
         .assignAddresses .wifiStaNode (List.range' (wifiNetwork + 1) p.nWifi),
         .assignAddresses .wifiApNode [wifiNetwork + (p.nWifi + 1)]] ++
        serverActions p ++ (List.range p.nWifi).flatMap (clientActions p) ++
        finalActions p) := by
  unfold wirelessMain
  rw [addressActions_of_le p.nWifi (by omega),
    clientLoop_run p.nWifi h1 (by omega) p.nWifi 0 fuel (by omega) hf,
    ← List.range_eq_range']

/-- Claim C4, counterexample: with `cwmin = 1023 > cwmax = 31` and the other
variables at their initial values, the script applies both values as defaults
and runs to the end, through `Simulator::Run`. -/
theorem cw_counterexample :
    (1023 : Nat) > 31 ∧
    (wirelessMain 6 ⟨5, 1023, 31, 50⟩).isCompleted = true ∧
    Action.setDefault "ns3::Txop::MinCw" 1023 ∈ (wirelessMain 6 ⟨5, 1023, 31, 50⟩).calls ∧
    Action.setDefault "ns3::Txop::MaxCw" 31 ∈ (wirelessMain 6 ⟨5, 1023, 31, 50⟩).calls ∧
    Action.simulatorRun ∈ (wirelessMain 6 ⟨5, 1023, 31, 50⟩).calls := by
  rw [wirelessMain_completed 6 ⟨5, 1023, 31, 50⟩ (by decide) (by decide) (by decide)]
  refine ⟨by decide, rfl, ?_, ?_, ?_⟩ <;>
  simp [Outcome.calls, defaultActions, finalActions]

/-- Claim C4, as amended: for every pair `(cwmin, cwmax)`, in either order,
the script applies `cwmin` and `cwmax` unchanged as the `Txop` defaults and,
with 1 to 253 stations and a sufficient loop budget, construction succeeds and
reaches `Simulator::Run`; no run of the script fails with `invalidSpec`. -/
theorem cw_bounds_unchecked (fuel : Nat) (p : Params)
    (h1 : 1 ≤ p.nWifi) (h2 : p.nWifi ≤ 253) (hf : p.nWifi < fuel) :
    (wirelessMain fuel p).isCompleted = true ∧
    Action.setDefault "ns3::Txop::MinCw" p.cwmin ∈ (wirelessMain fuel p).calls ∧
    Action.setDefault "ns3::Txop::MaxCw" p.cwmax ∈ (wirelessMain fuel p).calls ∧
    Action.simulatorRun ∈ (wirelessMain fuel p).calls ∧
    (∀ (budget : Nat) (q : Params) (calls : List Action),
      wirelessMain budget q ≠ .aborted .invalidSpec calls) := by
  rw [wirelessMain_completed fuel p h1 h2 hf]
  refine ⟨rfl, ?_, ?_, ?_, ?_⟩
  · simp [Outcome.calls, defaultActions]
  · simp [Outcome.calls, defaultActions]
  · simp [Outcome.calls, finalActions]
  · intro budget q calls hq
    unfold wirelessMain at hq
    rcases haddr : addressActions q.nWifi with ⟨addressing, err⟩
    rw [haddr] at hq
    cases err with
    | some e =>
      have he := (addressActions_spec q.nWifi).2 e (by rw [haddr])
      subst he
      simp at hq
    | none =>
      simp only at hq
      split at hq <;> simp at hq

/-- Witness of `cw_bounds_unchecked` at `cwmin = 1023`, `cwmax = 31`. -/
theorem cw_bounds_unchecked_witness :
    (1 ≤ 5 ∧ 5 ≤ 253 ∧ 5 < 6 ∧ (1023 : Nat) > 31) ∧
    (wirelessMain 6 ⟨5, 1023, 31, 50⟩).isCompleted = true :=
  ⟨⟨by decide, by decide, by decide, by decide⟩,
   (cw_bounds_unchecked 6 ⟨5, 1023, 31, 50⟩ (by decide) (by decide) (by decide)).1⟩

/-- Every `Start` call of a run of testBAS.cc is the server start at 0 or a
client start at 1. -/
theorem wirelessMain_appStart (fuel : Nat) (p : Params) (role : Role) (c : Container)
    (i : Nat) (t : ℚ) (h : Action.appStart role c i t ∈ (wirelessMain fuel p).calls) :
    (role = .server ∧ c = .wifiApNode ∧ i = 0 ∧ t = 0) ∨
    (role = .client ∧ c = .wifiStaNode ∧ t = 1) := by
  obtain ⟨rest, hcalls, hrest⟩ := wirelessMain_calls fuel p
  rw [hcalls] at h
  simp only [List.mem_append] at h
  rcases h with h | h | h
  · simp [defaultActions] at h
  · simp [topologyActions] at h
  · rcases hrest _ h with h | h | ⟨k, h⟩ | h
    · rcases (addressActions_spec p.nWifi).1 _ h with ⟨_, _, h⟩ | ⟨_, _, h⟩ <;> simp at h
    · simp [serverActions] at h
      exact Or.inl h
    · simp [clientActions] at h
      exact Or.inr ⟨h.1, h.2.1, h.2.2.2⟩
    · simp [finalActions] at h

/-- Every `Stop` call of a run of testBAS.cc is at `simulationTime + 1`. -/
theorem wirelessMain_appStop (fuel : Nat) (p : Params) (role : Role) (c : Container)
    (i : Nat) (t : ℚ) (h : Action.appStop role c i t ∈ (wirelessMain fuel p).calls) :
    t = stopTime p := by
  obtain ⟨rest, hcalls, hrest⟩ := wirelessMain_calls fuel p
  rw [hcalls] at h
  simp only [List.mem_append] at h
  rcases h with h | h | h
  · simp [defaultActions] at h
  · simp [topologyActions] at h
  · rcases hrest _ h with h | h | ⟨k, h⟩ | h
    · rcases (addressActions_spec p.nWifi).1 _ h with ⟨_, _, h⟩ | ⟨_, _, h⟩ <;> simp at h
    · simp [serverActions] at h
      exact h.2.2.2
    · simp [clientActions] at h
      exact h.2.2.2
    · simp [finalActions] at h

/-- With `simulationTime = 0` the `double` sum `simulationTime + 1` is 1. -/
theorem stopTime_zero (nWifi cwmin cwmax : Nat) : stopTime ⟨nWifi, cwmin, cwmax, 0⟩ = 1 := by
  show roundToDouble (0 + 1) = 1
  rw [zero_add]
  exact roundToDouble_one

/-- With `simulationTime = 50` the `double` sum `simulationTime + 1` is 51. -/
theorem stopTime_50 (nWifi cwmin cwmax : Nat) : stopTime ⟨nWifi, cwmin, cwmax, 50⟩ = 51 := by
  show roundToDouble (50 + 1) = 51
  norm_num
  exact roundToDouble_51

/-- Claim C5, counterexample: with `simulationTime = 0` the client of station
0 is started at 1 and stopped at 1, so start < stop fails, and the script
still runs to the end, through `Simulator::Run`. -/
theorem schedule_counterexample :
    (wirelessMain 6 ⟨5, 31, 1023, 0⟩).isCompleted = true ∧
    Action.appStart .client .wifiStaNode 0 1 ∈ (wirelessMain 6 ⟨5, 31, 1023, 0⟩).calls ∧
    Action.appStop .client .wifiStaNode 0 1 ∈ (wirelessMain 6 ⟨5, 31, 1023, 0⟩).calls ∧
    Action.simulatorRun ∈ (wirelessMain 6 ⟨5, 31, 1023, 0⟩).calls ∧
    ¬ ((1 : ℚ) < 1) := by
  rw [wirelessMain_completed 6 ⟨5, 31, 1023, 0⟩ (by decide) (by decide) (by decide)]
  refine ⟨rfl, ?_, ?_, ?_, by norm_num⟩
  · simp [Outcome.calls, clientActions, List.range_succ]
  · simp [Outcome.calls, clientActions, List.range_succ, stopTime_zero]
  · simp [Outcome.calls, finalActions]

/-- Claim C5, as amended: the point-to-point generators are the server
`[1, 10)` and the client `[2, 10)`, with start < stop; in the wireless
scenario the server is started at 0, every client at 1, and every generator is
stopped at the `double` sum `simulationTime + 1`, so start < stop holds for
every generator when `simulationTime > 2^-53`; the script does not check
schedules: when `-1 ≤ simulationTime ≤ 2^-53` (with 1 to 253 stations) the sum
is at most 1, the client schedule with start ≥ stop is installed as given and
the script goes on to `Simulator::Run`. -/
theorem schedules (fuel : Nat) (p : Params) :
    (firstMain.isCompleted = true ∧
      Action.appStart .server .nodes 1 1 ∈ firstMain.calls ∧
      Action.appStop .server .nodes 1 10 ∈ firstMain.calls ∧
      Action.appStart .client .nodes 0 2 ∈ firstMain.calls ∧
      Action.appStop .client .nodes 0 10 ∈ firstMain.calls ∧
      ∀ role c i t0 t1, Action.appStart role c i t0 ∈ firstMain.calls →
        Action.appStop role c i t1 ∈ firstMain.calls → t0 < t1) ∧
    (∀ role c i t, Action.appStart role c i t ∈ (wirelessMain fuel p).calls →
      (role = .server ∧ c = .wifiApNode ∧ i = 0 ∧ t = 0) ∨
      (role = .client ∧ c = .wifiStaNode ∧ t = 1)) ∧
    (∀ role c i t, Action.appStop role c i t ∈ (wirelessMain fuel p).calls →
      t = addDouble p.simulationTime 1) ∧
    (1 / 2 ^ 53 < p.simulationTime →
      ∀ role c i t0 t1, Action.appStart role c i t0 ∈ (wirelessMain fuel p).calls →
        Action.appStop role c i t1 ∈ (wirelessMain fuel p).calls → t0 < t1) ∧
    (-1 ≤ p.simulationTime → p.simulationTime ≤ 1 / 2 ^ 53 →
      1 ≤ p.nWifi → p.nWifi ≤ 253 → p.nWifi < fuel →
      (wirelessMain fuel p).isCompleted = true ∧
      Action.appStart .client .wifiStaNode 0 1 ∈ (wirelessMain fuel p).calls ∧
      Action.appStop .client .wifiStaNode 0 (addDouble p.simulationTime 1)
        ∈ (wirelessMain fuel p).calls ∧
      addDouble p.simulationTime 1 ≤ 1 ∧
      Action.simulatorRun ∈ (wirelessMain fuel p).calls) := by
  refine ⟨?_, wirelessMain_appStart fuel p, wirelessMain_appStop fuel p, ?_, ?_⟩
  · rw [firstMain_eq]
    refine ⟨rfl, ?_, ?_, ?_, ?_, ?_⟩
    · simp [Outcome.calls]
    · simp [Outcome.calls]
    · simp [Outcome.calls]
    · simp [Outcome.calls]
    · intro role c i t0 t1 h0 h1
      simp [Outcome.calls] at h0 h1
      rcases h0 with ⟨rfl, rfl, rfl, rfl⟩ | ⟨rfl, rfl, rfl, rfl⟩ <;>
      rcases h1 with ⟨h, _, _, rfl⟩ | ⟨h, _, _, rfl⟩ <;>
      norm_num
  · intro hT role c i t0 t1 h0 h1
    have hstop := wirelessMain_appStop fuel p role c i t1 h1
    have hgt : 1 < stopTime p := one_lt_add_one p.simulationTime hT
    rcases wirelessMain_appStart fuel p role c i t0 h0 with ⟨_, _, _, h⟩ | ⟨_, _, h⟩ <;>
    rw [h, hstop] <;> linarith
  · intro hlo hT h1 h2 hf
    rw [wirelessMain_completed fuel p h1 h2 hf]
    obtain ⟨n, hn⟩ : ∃ n, p.nWifi = n + 1 := ⟨p.nWifi - 1, by omega⟩
    refine ⟨rfl, ?_, ?_, add_one_le_one p.simulationTime hlo hT, ?_⟩
    · simp only [Outcome.calls, List.mem_append, List.mem_flatMap, List.mem_range]
      exact Or.inl (Or.inr ⟨0, by omega, by simp [clientActions]⟩)
    · simp only [Outcome.calls, List.mem_append, List.mem_flatMap, List.mem_range]
      exact Or.inl (Or.inr ⟨0, by omega, by simp [clientActions, stopTime]⟩)
    · simp [Outcome.calls, finalActions]

/-- Witness of `schedules` at `simulationTime = 50` and at
`simulationTime = 0`. -/
theorem schedules_witness :
    ((1 : ℚ) / 2 ^ 53 < 50 ∧ (-1 : ℚ) ≤ 0 ∧ (0 : ℚ) ≤ 1 / 2 ^ 53 ∧ 1 ≤ 5 ∧ 5 ≤ 253 ∧ 5 < 6) ∧
    (∀ role c i t0 t1, Action.appStart role c i t0 ∈ (wirelessMain 6 ⟨5, 31, 1023, 50⟩).calls →
        Action.appStop role c i t1 ∈ (wirelessMain 6 ⟨5, 31, 1023, 50⟩).calls → t0 < t1) ∧
    (wirelessMain 6 ⟨5, 31, 1023, 0⟩).isCompleted = true :=
  ⟨⟨by norm_num, by norm_num, by norm_num, by decide, by decide, by decide⟩,
   (schedules 6 ⟨5, 31, 1023, 50⟩).2.2.2.1 (by norm_num),
   ((schedules 6 ⟨5, 31, 1023, 0⟩).2.2.2.2 (by norm_num) (by norm_num) (by decide)
      (by decide) (by decide)).1⟩

/-- With no station the access point receives the first address. -/
theorem addressActions_zero :
    addressActions 0 =
      ([.setBase wifiNetwork mask24, .assignAddresses .wifiStaNode [],
        .assignAddresses .wifiApNode [wifiNetwork + 1]], none) :=
  addressActions_of_le 0 (by decide)

/-- Claim C6, counterexample: with `nWifi = 0`, before the client loop is
entered the script has created the access-point node, installed its device,
assigned it the address 192.168.1.1 and installed the server; the run is not
aborted with `invalidSpec`. -/
theorem zero_stations_counterexample :
    (wirelessMain 0 ⟨0, 31, 1023, 50⟩).calls =
      [ .setDefault "ns3::WifiRemoteStationManager::FragmentationThreshold" 99999990,
        .setDefault "ns3::WifiRemoteStationManager::RtsCtsThreshold" 999999,
        .setDefault "ns3::WifiRemoteStationManager::MaxSsrc" 10000,
        .setDefault "ns3::WifiRemoteStationManager::MaxSlrc" 10000,
        .setDefault "ns3::Txop::MinCw" 31,
        .setDefault "ns3::Txop::MaxCw" 1023,
        .createNodes .wifiStaNode 0,
        .createNodes .wifiApNode 1,
        .installDevices .wifiStaNode 0,
        .installDevices .wifiApNode 1,
        .addPosition 0,
        .installMobility .wifiApNode,
        .installMobility .wifiStaNode,
        .installStack .wifiApNode,
        .installStack .wifiStaNode,
        .setBase wifiNetwork mask24,
        .assignAddresses .wifiStaNode [],
        .assignAddresses .wifiApNode [wifiNetwork + 1],
        .installApp .server .wifiApNode 0,
        .appStart .server .wifiApNode 0 0,
        .appStop .server .wifiApNode 0 51 ] ∧
    wirelessMain 0 ⟨0, 31, 1023, 50⟩ ≠ .aborted .invalidSpec (wirelessMain 0 ⟨0, 31, 1023, 50⟩).calls := by
  have h : wirelessMain 0 ⟨0, 31, 1023, 50⟩ = .unfinished
      (defaultActions ⟨0, 31, 1023, 50⟩ ++ topologyActions ⟨0, 31, 1023, 50⟩ ++
        [.setBase wifiNetwork mask24, .assignAddresses .wifiStaNode [],
         .assignAddresses .wifiApNode [wifiNetwork + 1]] ++
        serverActions ⟨0, 31, 1023, 50⟩ ++ []) := by
    unfold wirelessMain
    rw [addressActions_zero]
    rfl
  rw [h]
  refine ⟨?_, by simp⟩
  simp only [Outcome.calls, defaultActions, topologyActions, serverActions, stopTime_50]
  norm_num [List.range_succ]

/-- Claim C6, as amended: with `nWifi = 0` the script raises no
`invalidSpec`; it creates an empty station set and the access-point node,
installs the access-point device, assigns it host id 1 and installs the
server `[0, simulationTime + 1)` before reaching the client-installation
loop. -/
theorem zero_stations (fuel : Nat) (p : Params) (h0 : p.nWifi = 0) :
    (∃ rest, (wirelessMain fuel p).calls =
      [ .setDefault "ns3::WifiRemoteStationManager::FragmentationThreshold" 99999990,
        .setDefault "ns3::WifiRemoteStationManager::RtsCtsThreshold" 999999,
        .setDefault "ns3::WifiRemoteStationManager::MaxSsrc" 10000,
        .setDefault "ns3::WifiRemoteStationManager::MaxSlrc" 10000,
        .setDefault "ns3::Txop::MinCw" p.cwmin,
        .setDefault "ns3::Txop::MaxCw" p.cwmax,
        .createNodes .wifiStaNode 0,
        .createNodes .wifiApNode 1,
        .installDevices .wifiStaNode 0,
        .installDevices .wifiApNode 1,
        .addPosition 0,
        .installMobility .wifiApNode,
        .installMobility .wifiStaNode,
        .installStack .wifiApNode,
        .installStack .wifiStaNode,
        .setBase wifiNetwork mask24,
        .assignAddresses .wifiStaNode [],
        .assignAddresses .wifiApNode [wifiNetwork + 1],
        .installApp .server .wifiApNode 0,
        .appStart .server .wifiApNode 0 0,
        .appStop .server .wifiApNode 0 (stopTime p) ] ++ rest) ∧
    (∀ calls, wirelessMain fuel p ≠ .aborted .invalidSpec calls) ∧
    hostId wifiNetwork (wifiNetwork + 1) = 1 := by
  obtain ⟨n, cwmin, cwmax, T⟩ := p
  simp only at h0
  subst h0
  refine ⟨?_, ?_, ?_⟩
  · unfold wirelessMain
    rw [addressActions_zero]
    rcases hloop : clientLoop 0 fuel 0 with ⟨visited, left⟩
    cases left with
    | false =>
      refine ⟨visited.flatMap (clientActions ⟨0, cwmin, cwmax, T⟩), ?_⟩
      simp only [Outcome.calls, defaultActions, topologyActions, serverActions]
      simp only [List.range_succ, List.range_zero, List.nil_append, List.map_cons,
        List.map_nil, List.append_assoc, List.cons_append]
    | true =>
      refine ⟨visited.flatMap (clientActions ⟨0, cwmin, cwmax, T⟩)
        ++ finalActions ⟨0, cwmin, cwmax, T⟩, ?_⟩
      simp only [Outcome.calls, defaultActions, topologyActions, serverActions]
      simp only [List.range_succ, List.range_zero, List.nil_append, List.map_cons,
        List.map_nil, List.append_assoc, List.cons_append]
  · intro calls hq
    unfold wirelessMain at hq
    rw [addressActions_zero] at hq
    simp only at hq
    split at hq <;> simp at hq
  · generalize wifiNetwork = w
    simp [hostId]

/-- Witness of `zero_stations` at the initial values with `nWifi = 0`. -/
theorem zero_stations_witness :
    (0 : Nat) = 0 ∧
    ∀ calls, wirelessMain 1 ⟨0, 31, 1023, 50⟩ ≠ .aborted .invalidSpec calls :=
  ⟨rfl, (zero_stations 1 ⟨0, 31, 1023, 50⟩ rfl).2.1⟩

/-- In a sequence made of a block without device installation followed by a
block without `Config::SetDefault`, every `Config::SetDefault` comes before
every device installation. -/
theorem setDefault_before_install (front rest : List Action)
    (hfront : ∀ a ∈ front, a.isInstallDevices = false)
    (hrest : ∀ a ∈ rest, a.isSetDefault = false)
    (i j : Nat) (a b : Action)
    (ha : (front ++ rest)[i]? = some a) (hset : a.isSetDefault = true)
    (hb : (front ++ rest)[j]? = some b) (hinst : b.isInstallDevices = true) :
    i < j := by
  by_contra hij
  by_cases hi : i < front.length
  · rw [List.getElem?_append_left (by omega)] at hb
    have := hfront b (List.getElem?_mem hb)
    rw [hinst] at this
    exact Bool.noConfusion this
  · rw [List.getElem?_append_right (by omega)] at ha
    have := hrest a (List.getElem?_mem ha)
    rw [hset] at this
    exact Bool.noConfusion this

/-- Claim C9: in every run of the wireless script, complete or not, the calls
start with the six `Config::SetDefault` calls (fragmentation threshold,
RTS/CTS threshold, the two retry limits, and `Txop` `MinCw` / `MaxCw` with the
values of `cwmin` / `cwmax` after command-line parsing); no later call is a
`Config::SetDefault`, both device installations come later, and so every
`Config::SetDefault` precedes every device installation. -/
theorem defaults_before_devices (cmd : CommandLine) (fuel : Nat) :
    (∃ rest,
      (wirelessMain fuel (parse cmd)).calls =
        [ .setDefault "ns3::WifiRemoteStationManager::FragmentationThreshold" 99999990,
          .setDefault "ns3::WifiRemoteStationManager::RtsCtsThreshold" 999999,
          .setDefault "ns3::WifiRemoteStationManager::MaxSsrc" 10000,
          .setDefault "ns3::WifiRemoteStationManager::MaxSlrc" 10000,
          .setDefault "ns3::Txop::MinCw" (cmd.cwmin.getD 31),
          .setDefault "ns3::Txop::MaxCw" (cmd.cwmax.getD 1023) ] ++ rest ∧
      (∀ a ∈ rest, a.isSetDefault = false) ∧
      Action.installDevices .wifiStaNode (cmd.nWifi.getD 5) ∈ rest ∧
      Action.installDevices .wifiApNode 1 ∈ rest) ∧
    (∀ (i j : Nat) (a b : Action),
      (wirelessMain fuel (parse cmd)).calls[i]? = some a → a.isSetDefault = true →
      (wirelessMain fuel (parse cmd)).calls[j]? = some b → b.isInstallDevices = true →
      i < j) := by
  obtain ⟨rest, hcalls, hrest⟩ := wirelessMain_calls fuel (parse cmd)
  have hnoset : ∀ a ∈ topologyActions (parse cmd) ++ rest, a.isSetDefault = false := by
    intro a ha
    rw [List.mem_append] at ha
    rcases ha with ha | ha
    · simp [topologyActions] at ha
      rcases ha with ha | ha | ha | ha | ⟨_, _, ha⟩ | ha | ha | ha | ha <;>
      subst ha <;> rfl
    · rcases hrest a ha with h | h | ⟨k, h⟩ | h
      · rcases (addressActions_spec _).1 a h with ⟨_, _, h⟩ | ⟨_, _, h⟩ <;> subst h <;> rfl
      · simp [serverActions] at h
        rcases h with h | h | h <;> subst h <;> rfl
      · simp [clientActions] at h
        rcases h with h | h | h <;> subst h <;> rfl
      · simp [finalActions] at h
        rcases h with h | h | h | h <;> subst h <;> rfl
  have hnoinst : ∀ a ∈ defaultActions (parse cmd), a.isInstallDevices = false := by
    intro a ha
    simp [defaultActions] at ha
    rcases ha with h | h | h | h | h | h <;> subst h <;> rfl
  refine ⟨⟨topologyActions (parse cmd) ++ rest, ?_, hnoset, ?_, ?_⟩, ?_⟩
  · rw [hcalls]
    rfl
  · simp [topologyActions, parse, defaultParams]
  · simp [topologyActions]
  · intro i j a b ha hset hb hinst
    rw [hcalls] at ha hb
    exact setDefault_before_install _ _ hnoinst hnoset i j a b ha hset hb hinst


end NS3Scratch
